import Mathlib

/-!
Verification development for the jello CLI (src/jello/cli.py, version 0.3.1).

The pipeline under study is `main`'s core:
`load_json` (ingestion) → `pyquery` (evaluator bridge) → `normalize`
(line normalizer) → `print_json` (output formatter).

Strings are modelled as `List Char` (Python `str` is a sequence of code
points).  Machine-level aspects (floats, the host `exec` interpreter's
full semantics) are out of scope; where the embedding models host-library
behaviour (`json.loads`, `ast.literal_eval`, `str`/`repr`) the definitions
follow the documented behaviour of those functions on the value domain
that JSON produces (None/bool/int/str/list/dict), restricted to integer
numbers.
-/

namespace Jello

/-- Convenience: the character list underlying a string literal. -/
abbrev chars (s : String) : List Char := s.data

/-- The sentinel character U+2063 (INVISIBLE SEPARATOR) used by
`load_json` at cli.py:187 as a stand-in for the two-character escape
sequence backslash-n. -/
def sent : Char := Char.ofNat 0x2063

/-- JSON whitespace accepted by `json.loads` between tokens:
space, tab, newline, carriage return. -/
def isJsonWs (c : Char) : Bool :=
  c.toNat = 32 || c.toNat = 9 || c.toNat = 10 || c.toNat = 13

/-- Whitespace stripped by Python `str.strip()` (ASCII part):
space, tab, newline, carriage return, vertical tab, form feed. -/
def isStripWs (c : Char) : Bool :=
  c.toNat = 32 || c.toNat = 9 || c.toNat = 10 || c.toNat = 13 ||
  c.toNat = 11 || c.toNat = 12

/-- Line-boundary characters recognised by Python `str.splitlines()`. -/
def isLB (c : Char) : Bool :=
  c.toNat = 10 || c.toNat = 13 || c.toNat = 11 || c.toNat = 12 ||
  c.toNat = 28 || c.toNat = 29 || c.toNat = 30 ||
  c.toNat = 0x85 || c.toNat = 0x2028 || c.toNat = 0x2029

/-- ASCII letter (the side condition used by the sentinel round-trip
theorems). -/
def isAsciiLetter (c : Char) : Bool :=
  (65 ≤ c.toNat && c.toNat ≤ 90) || (97 ≤ c.toNat && c.toNat ≤ 122)

mutual

/-- The Value model: the tagged union shared by every stage.  Mirrors the
Python values produced by `json.loads` (None, bool, int, str, list, dict);
floats are not modelled.  `ValList`/`ValDict` are the spines of Python
lists and dicts (insertion order preserved). -/
inductive Val where
  | null : Val
  | bool (b : Bool) : Val
  | int (n : Int) : Val
  | str (s : List Char) : Val
  | list (xs : ValList) : Val
  | dict (kvs : ValDict) : Val
deriving DecidableEq

/-- Ordered spine of a Python list of `Val`. -/
inductive ValList where
  | nil : ValList
  | cons (v : Val) (tl : ValList) : ValList
deriving DecidableEq

/-- Ordered spine of a Python dict with string keys. -/
inductive ValDict where
  | nil : ValDict
  | cons (k : List Char) (v : Val) (tl : ValDict) : ValDict
deriving DecidableEq

end

/-- Boolean test: `pat` is an initial segment of `l`. -/
def leadsWith : List Char → List Char → Bool
  | [], _ => true
  | _ :: _, [] => false
  | p :: ps, c :: cs => p == c && leadsWith ps cs

/-- Boolean test: `pat` occurs as a contiguous subsequence of the text. -/
def hasSeq (pat : List Char) : List Char → Bool
  | [] => leadsWith pat []
  | c :: cs => leadsWith pat (c :: cs) || hasSeq pat cs

/-- Decimal digit character for `n < 10`. -/
def digitChar (n : Nat) : Char := Char.ofNat (48 + n)

/-- Lower-case hex digit character for `n < 16`. -/
def hexChar (n : Nat) : Char :=
  if n < 10 then Char.ofNat (48 + n) else Char.ofNat (87 + n)

/-- Hex digit value of a character, accepting both cases. -/
def fromHex (c : Char) : Option Nat :=
  if '0' ≤ c ∧ c ≤ '9' then some (c.toNat - 48)
  else if 'a' ≤ c ∧ c ≤ 'f' then some (c.toNat - 87)
  else if 'A' ≤ c ∧ c ≤ 'F' then some (c.toNat - 55)
  else none

/-- Decimal digits of a natural number, most significant first.
Fuel-indexed so that the kernel can evaluate it; `natDigits` supplies
sufficient fuel. -/
def natDigitsF : Nat → Nat → List Char
  | 0, _ => []
  | f + 1, n => if n < 10 then [digitChar n] else natDigitsF f (n / 10) ++ [digitChar (n % 10)]

/-- Decimal digits of a natural number (as printed by Python). -/
def natDigits (n : Nat) : List Char := natDigitsF (n + 1) n

/-- Decimal text of an integer, as printed by both Python `str` and
`json.dumps` for ints. -/
def intChars (i : Int) : List Char :=
  if i < 0 then '-' :: natDigits (-i).toNat else natDigits i.toNat

/-- JSON serialization of one string character with minimal escaping:
quote, backslash and control characters are escaped, everything else is
emitted raw. -/
def escC (c : Char) : List Char :=
  if c = '"' then ['\\', '"']
  else if c = '\\' then ['\\', '\\']
  else if c = '\n' then ['\\', 'n']
  else if c = '\t' then ['\\', 't']
  else if c = '\r' then ['\\', 'r']
  else if c.toNat = 8 then ['\\', 'b']
  else if c.toNat = 12 then ['\\', 'f']
  else if c.toNat < 0x20 then
    ['\\', 'u', '0', '0', hexChar (c.toNat / 16), hexChar (c.toNat % 16)]
  else [c]

/-- JSON escaping of a whole string body. -/
def escStr : List Char → List Char
  | [] => []
  | c :: cs => escC c ++ escStr cs

mutual

/-- `jsonText`: serialization of a Value to JSON text (the spec's
`json_text(D)`), compact form with no optional whitespace. -/
def serV : Val → List Char
  | .null => chars "null"
  | .bool true => chars "true"
  | .bool false => chars "false" 
  | .int i => intChars i
  | .str s => '"' :: escStr s ++ ['"']
  | .list xs => '[' :: serL xs ++ [']']
  | .dict kvs => '{' :: serD kvs ++ ['}']

/-- Serialization of array elements, comma separated. -/
def serL : ValList → List Char
  | .nil => []
  | .cons v .nil => serV v
  | .cons v (.cons w tl) => serV v ++ ',' :: serL (.cons w tl)

/-- Serialization of object members, comma separated. -/
def serD : ValDict → List Char
  | .nil => []
  | .cons k v .nil => '"' :: escStr k ++ '"' :: ':' :: serV v
  | .cons k v (.cons k2 v2 tl) =>
    ('"' :: escStr k ++ '"' :: ':' :: serV v) ++ ',' :: serD (.cons k2 v2 tl)

end

/-- Drop leading JSON whitespace. -/
def skipWs (l : List Char) : List Char := l.dropWhile isJsonWs

/-- Greedy decimal-digit scan: consumes leading digits, accumulating the
value left to right (the core of the JSON and Python int token). -/
def parseDigits : List Char → Nat → Nat × List Char
  | [], acc => (acc, [])
  | c :: rest, acc =>
    if c.isDigit then parseDigits rest (acc * 10 + (c.toNat - 48)) else (acc, c :: rest)

/-- Integer token parse: optional minus sign followed by at least one
digit (the integer fragment of the JSON number grammar; floats are not
modelled). -/
def pNum : List Char → Option (Int × List Char)
  | [] => none
  | c :: rest =>
    if c = '-' then
      match rest with
      | [] => none
      | d :: _ =>
        if d.isDigit then
          let (n, r) := parseDigits rest 0
          some (-(n : Int), r)
        else none
    else if c.isDigit then
      let (n, r) := parseDigits (c :: rest) 0
      some ((n : Int), r)
    else none

/-- Body of a JSON string after the opening quote, following
`json.loads`: raw characters (at or above 0x20, except quote and
backslash) plus the standard escapes.  Unicode escapes below the
surrogate range are accepted; surrogate pairs are not modelled (the
serializer never emits them). -/
def pStr : List Char → Option (List Char × List Char)
  | [] => none
  | c :: rest =>
    if c = '"' then some ([], rest)
    else if c = '\\' then
      match rest with
      | [] => none
      | e :: rest2 =>
        if e = '"' then (pStr rest2).map (fun p => ('"' :: p.1, p.2))
        else if e = '\\' then (pStr rest2).map (fun p => ('\\' :: p.1, p.2))
        else if e = '/' then (pStr rest2).map (fun p => ('/' :: p.1, p.2))
        else if e = 'n' then (pStr rest2).map (fun p => ('\n' :: p.1, p.2))
        else if e = 't' then (pStr rest2).map (fun p => ('\t' :: p.1, p.2))
        else if e = 'r' then (pStr rest2).map (fun p => ('\r' :: p.1, p.2))
        else if e = 'b' then (pStr rest2).map (fun p => (Char.ofNat 8 :: p.1, p.2))
        else if e = 'f' then (pStr rest2).map (fun p => (Char.ofNat 12 :: p.1, p.2))
        else if e = 'u' then
          match rest2 with
          | a :: b :: c2 :: d :: rest3 =>
            match fromHex a, fromHex b, fromHex c2, fromHex d with
            | some x1, some x2, some x3, some x4 =>
              let n := ((x1 * 16 + x2) * 16 + x3) * 16 + x4
              if n < 0xd800 then (pStr rest3).map (fun p => (Char.ofNat n :: p.1, p.2))
              else none
            | _, _, _, _ => none
          | _ => none
        else none
    else if c.toNat < 0x20 then none
    else (pStr rest).map (fun p => (c :: p.1, p.2))

mutual

/-- Recursive-descent JSON value parser (model of the grammar accepted by
`json.loads`, restricted to integer numbers).  Fuel-indexed structural
recursion; `jloads` supplies sufficient fuel. -/
def pV : Nat → List Char → Option (Val × List Char)
  | 0, _ => none
  | f + 1, l =>
    match skipWs l with
    | [] => none
    | c :: rest =>
      if c = 'n' then
        if leadsWith ['u', 'l', 'l'] rest then some (.null, rest.drop 3) else none
      else if c = 't' then
        if leadsWith ['r', 'u', 'e'] rest then some (.bool true, rest.drop 3) else none
      else if c = 'f' then
        if leadsWith ['a', 'l', 's', 'e'] rest then some (.bool false, rest.drop 4) else none
      else if c = '"' then (pStr rest).map (fun p => (.str p.1, p.2))
      else if c = '[' then
        match skipWs rest with
        | ']' :: r2 => some (.list .nil, r2)
        | r2 => (pArr f r2).map (fun p => (.list p.1, p.2))
      else if c = '{' then
        match skipWs rest with
        | '}' :: r2 => some (.dict .nil, r2)
        | r2 => (pObj f r2).map (fun p => (.dict p.1, p.2))
      else if c = '-' ∨ c.isDigit then
        (pNum (c :: rest)).map (fun p => (.int p.1, p.2))
      else none

/-- Parses `value (',' value)* ']'` for a non-empty JSON array body. -/
def pArr : Nat → List Char → Option (ValList × List Char)
  | 0, _ => none
  | f + 1, l =>
    match pV f l with
    | none => none
    | some (v, r) =>
      match skipWs r with
      | ',' :: r2 => (pArr f r2).map (fun p => (.cons v p.1, p.2))
      | ']' :: r2 => some (.cons v .nil, r2)
      | _ => none

/-- Parses `string ':' value (',' member)* '}'` for a non-empty JSON
object body. -/
def pObj : Nat → List Char → Option (ValDict × List Char)
  | 0, _ => none
  | f + 1, l =>
    match l with
    | '"' :: r0 =>
      match pStr r0 with
      | none => none
      | some (k, r1) =>
        match skipWs r1 with
        | ':' :: r2 =>
          match pV f r2 with
          | none => none
          | some (v, r3) =>
            match skipWs r3 with
            | ',' :: r4 => (pObj f (skipWs r4)).map (fun p => (.cons k v p.1, p.2))
            | '}' :: r4 => some (.cons k v .nil, r4)
            | _ => none
        | _ => none
    | _ => none

end

mutual

/-- Fuel sufficient for `pV` to parse the serialization of a value
(used only in proofs about the parser's fuel). -/
def weightV : Val → Nat
  | .null => 1
  | .bool _ => 1
  | .int _ => 1
  | .str _ => 1
  | .list xs => 1 + weightL xs
  | .dict kvs => 1 + weightD kvs

/-- Fuel sufficient for `pArr` on a serialized element list. -/
def weightL : ValList → Nat
  | .nil => 1
  | .cons v tl => 1 + weightV v + weightL tl

/-- Fuel sufficient for `pObj` on a serialized member list. -/
def weightD : ValDict → Nat
  | .nil => 1
  | .cons _ v tl => 1 + weightV v + weightD tl

end

/-- Model of `json.loads`: parse one JSON document and require only
trailing whitespace after it; `none` models a raised
`json.JSONDecodeError`. -/
def jloads (l : List Char) : Option Val :=
  match pV (2 * l.length + 2) l with
  | some (v, r) => if skipWs r = [] then some v else none
  | none => none

/-- Model of Python `str.replace(pat, repl)`: left-to-right,
non-overlapping.  Fuel-indexed so that the kernel can evaluate it;
`pyReplace` supplies sufficient fuel (one unit per input character). -/
def replF (pat repl : List Char) : Nat → List Char → List Char
  | 0, l => l
  | _ + 1, [] => []
  | f + 1, c :: cs =>
    if leadsWith pat (c :: cs) then repl ++ replF pat repl f ((c :: cs).drop pat.length)
    else c :: replF pat repl f cs

/-- Python `str.replace(pat, repl)` for a non-empty pattern. -/
def pyReplace (pat repl l : List Char) : List Char := replF pat repl l.length l

/-- Python `str.strip()`: remove leading and trailing whitespace. -/
def stripL (l : List Char) : List Char :=
  (((l.dropWhile isStripWs).reverse.dropWhile isStripWs)).reverse

/-- Split off the first line: content before the first line boundary and
the remainder after it (a CR-LF pair counts as one boundary). -/
def breakLine : List Char → List Char × List Char
  | [] => ([], [])
  | c :: cs =>
    if c.toNat = 13 then
      match cs with
      | c2 :: cs2 => if c2.toNat = 10 then ([], cs2) else ([], c2 :: cs2)
      | [] => ([], [])
    else if isLB c then ([], cs)
    else
      let p := breakLine cs
      (c :: p.1, p.2)

/-- Fuel-indexed worker for `splitlinesL`. -/
def splitF : Nat → List Char → List (List Char)
  | 0, _ => []
  | _ + 1, [] => []
  | f + 1, c :: cs =>
    let p := breakLine (c :: cs)
    p.1 :: splitF f p.2

/-- Model of Python `str.splitlines()`: list of lines without their
terminators; a trailing terminator produces no final empty line. -/
def splitlinesL (l : List Char) : List (List Char) := splitF l.length l

/-- Join a list of lines with single newline separators (the spec's
`join_lines`). -/
def joinNL : List (List Char) → List Char
  | [] => []
  | [l] => l
  | l :: l2 :: ls => l ++ '\n' :: joinNL (l2 :: ls)

/-- The two-character escape sequence backslash-n replaced by
`load_json` at cli.py:187. -/
def nlSeq : List Char := ['\\', 'n']

/-- The six-character text backslash-u-2-0-6-3: because cli.py:113 and
cli.py:121 pass raw strings to `str.replace`, `normalize` replaces this
text (not the sentinel character itself). -/
def uSeq : List Char := ['\\', 'u', '2', '0', '6', '3']

/-- Error outcomes of the pipeline.  `Except.error` models `sys.exit(1)`
after printing the message to stderr: the process terminates with a
non-zero status and nothing is written to stdout. -/
inductive JelloErr where
  /-- JSON Load Exception at cli.py:203: carries the 1-based line number
  and the first 70 characters of the offending line. -/
  | ingestion (lineNo : Nat) (preview : List Char) : JelloErr
  /-- cli.py:145: `jello:  Key does not exist: {e}`. -/
  | keyErr (msg : List Char) : JelloErr
  /-- cli.py:151: `jello:  {e}`. -/
  | idxErr (msg : List Char) : JelloErr
  /-- cli.py:157: malformed query text. -/
  | synErr (msg : List Char) : JelloErr
  /-- cli.py:173: catch-all Query Exception. -/
  | queryErr (msg : List Char) : JelloErr
  /-- an exception escaping `main` uncaught (e.g. `data[0]` in
  `print_json` when the normalized result list is empty). -/
  | crash : JelloErr
deriving DecidableEq

deriving instance DecidableEq for Except

/-- Worker for the JSON-Lines fallback loop of `load_json`
(cli.py:195-210): parse every line in order (empty lines included);
the first failure aborts with a `JSON Load Exception` naming the 1-based
line number and a 70-character preview. -/
def loadLines : List (List Char) → Nat → Except JelloErr ValList
  | [], _ => .ok .nil
  | l :: ls, i =>
    match jloads l with
    | some v =>
      match loadLines ls (i + 1) with
      | .ok vs => .ok (.cons v vs)
      | .error e => .error e
    | none => .error (.ingestion i (l.take 70))

/-- Model of `load_json` (cli.py:185-212): strip the input, replace every
two-character backslash-n sequence with the sentinel character U+2063,
try a whole-document parse, and on failure fall back to parsing each
line as JSON Lines. -/
def load_json (input : List Char) : Except JelloErr Val :=
  let data := pyReplace nlSeq [sent] (stripL input)
  match jloads data with
  | some v => .ok v
  | none =>
    match loadLines (splitlinesL data) 1 with
    | .ok vs => .ok (.list vs)
    | .error e => .error e

/-- Python `repr` escaping of one character inside a single-quoted
string literal.  Printability is modelled as printable ASCII; every
other character is hex-escaped (faithful for ASCII and for the
format-category sentinel U+2063, which Python also escapes). -/
def pyEscC (c : Char) : List Char :=
  if c = '\\' then ['\\', '\\']
  else if c = '\'' then ['\\', '\'']
  else if c = '\n' then ['\\', 'n']
  else if c = '\r' then ['\\', 'r']
  else if c = '\t' then ['\\', 't']
  else if 0x20 ≤ c.toNat ∧ c.toNat ≤ 0x7e then [c]
  else if c.toNat < 0x100 then ['\\', 'x', hexChar (c.toNat / 16), hexChar (c.toNat % 16)]
  else if c.toNat < 0x10000 then
    ['\\', 'u', hexChar (c.toNat / 4096 % 16), hexChar (c.toNat / 256 % 16),
     hexChar (c.toNat / 16 % 16), hexChar (c.toNat % 16)]
  else
    ['\\', 'U', hexChar (c.toNat / 0x10000000 % 16), hexChar (c.toNat / 0x1000000 % 16),
     hexChar (c.toNat / 0x100000 % 16), hexChar (c.toNat / 0x10000 % 16),
     hexChar (c.toNat / 4096 % 16), hexChar (c.toNat / 256 % 16),
     hexChar (c.toNat / 16 % 16), hexChar (c.toNat % 16)]

/-- Python `repr` escaping of a whole string body. -/
def pyEscStr : List Char → List Char
  | [] => []
  | c :: cs => pyEscC c ++ pyEscStr cs

mutual

/-- Model of Python `repr` on the JSON value domain: `None`/`True`/
`False`, decimal ints, single-quoted strings, `[...]` and `{...}` with
`, ` separators and `: ` after keys. -/
def pyRepr : Val → List Char
  | .null => chars "None"
  | .bool true => chars "True"
  | .bool false => chars "False" 
  | .int i => intChars i
  | .str s => '\'' :: pyEscStr s ++ ['\'']
  | .list xs => '[' :: pyReprL xs ++ [']']
  | .dict kvs => '{' :: pyReprD kvs ++ ['}']

/-- `repr` of list elements, `, ` separated. -/
def pyReprL : ValList → List Char
  | .nil => []
  | .cons v .nil => pyRepr v
  | .cons v (.cons w tl) => pyRepr v ++ ',' :: ' ' :: pyReprL (.cons w tl)

/-- `repr` of dict items, `, ` separated, `: ` after each key. -/
def pyReprD : ValDict → List Char
  | .nil => []
  | .cons k v .nil => ('\'' :: pyEscStr k ++ ['\'']) ++ ':' :: ' ' :: pyRepr v
  | .cons k v (.cons k2 v2 tl) =>
    (('\'' :: pyEscStr k ++ ['\'']) ++ ':' :: ' ' :: pyRepr v) ++
      ',' :: ' ' :: pyReprD (.cons k2 v2 tl)

end

/-- Model of Python `str` on the JSON value domain: a string is itself;
everything else prints as its `repr`.  This is what `print(r)` writes
(plus a newline). -/
def pyStr : Val → List Char
  | .str s => s
  | .null => pyRepr .null
  | .bool b => pyRepr (.bool b)
  | .int i => pyRepr (.int i)
  | .list xs => pyRepr (.list xs)
  | .dict kvs => pyRepr (.dict kvs)

/-- Whitespace skipped inside a Python literal expression on one line:
space and tab. -/
def skipSpTab (l : List Char) : List Char :=
  l.dropWhile (fun c => c.toNat = 32 || c.toNat = 9)

/-- Body of a Python string literal with quote character `q`, as
tokenized by `ast.literal_eval`: raw characters other than the quote,
backslash and newline, plus the standard escapes.  Escapes Python would
keep literally (unknown ones) are rejected; `repr` never produces them. -/
def pyLitStr (q : Char) : List Char → Option (List Char × List Char)
  | [] => none
  | c :: rest =>
    if c = q then some ([], rest)
    else if c = '\\' then
      match rest with
      | [] => none
      | e :: rest2 =>
        if e = '\\' then (pyLitStr q rest2).map (fun p => ('\\' :: p.1, p.2))
        else if e = '\'' then (pyLitStr q rest2).map (fun p => ('\'' :: p.1, p.2))
        else if e = '"' then (pyLitStr q rest2).map (fun p => ('"' :: p.1, p.2))
        else if e = 'n' then (pyLitStr q rest2).map (fun p => ('\n' :: p.1, p.2))
        else if e = 't' then (pyLitStr q rest2).map (fun p => ('\t' :: p.1, p.2))
        else if e = 'r' then (pyLitStr q rest2).map (fun p => ('\r' :: p.1, p.2))
        else if e = 'b' then (pyLitStr q rest2).map (fun p => (Char.ofNat 8 :: p.1, p.2))
        else if e = 'f' then (pyLitStr q rest2).map (fun p => (Char.ofNat 12 :: p.1, p.2))
        else if e = 'x' then
          match rest2 with
          | a :: b :: rest3 =>
            match fromHex a, fromHex b with
            | some x1, some x2 =>
              (pyLitStr q rest3).map (fun p => (Char.ofNat (x1 * 16 + x2) :: p.1, p.2))
            | _, _ => none
          | _ => none
        else if e = 'u' then
          match rest2 with
          | a :: b :: c2 :: d :: rest3 =>
            match fromHex a, fromHex b, fromHex c2, fromHex d with
            | some x1, some x2, some x3, some x4 =>
              let n := ((x1 * 16 + x2) * 16 + x3) * 16 + x4
              if n < 0xd800 then (pyLitStr q rest3).map (fun p => (Char.ofNat n :: p.1, p.2))
              else none
            | _, _, _, _ => none
          | _ => none
        else none
    else if c = '\n' then none
    else (pyLitStr q rest).map (fun p => (c :: p.1, p.2))

mutual

/-- Model of the literal grammar accepted by `ast.literal_eval` on the
value domain `normalize` can meet: `None`/`True`/`False`, ints,
single- or double-quoted strings, list and dict displays.  Tuples, sets,
floats and complex numbers are not modelled (the pipeline never produces
them).  Fuel-indexed; `litEval` supplies sufficient fuel. -/
def pLit : Nat → List Char → Option (Val × List Char)
  | 0, _ => none
  | f + 1, l =>
    let l1 := skipSpTab l
    if leadsWith ['N', 'o', 'n', 'e'] l1 then some (.null, l1.drop 4)
    else if leadsWith ['T', 'r', 'u', 'e'] l1 then some (.bool true, l1.drop 4)
    else if leadsWith ['F', 'a', 'l', 's', 'e'] l1 then some (.bool false, l1.drop 5)
    else
      match l1 with
      | [] => none
      | c :: rest =>
        if c = '\'' ∨ c = '"' then (pyLitStr c rest).map (fun p => (.str p.1, p.2))
        else if c = '-' ∨ c.isDigit then (pNum (c :: rest)).map (fun p => (.int p.1, p.2))
        else if c = '[' then
          match skipSpTab rest with
          | ']' :: r2 => some (.list .nil, r2)
          | r2 => (pLitArr f r2).map (fun p => (.list p.1, p.2))
        else if c = '{' then
          match skipSpTab rest with
          | '}' :: r2 => some (.dict .nil, r2)
          | r2 => (pLitObj f r2).map (fun p => (.dict p.1, p.2))
        else none

/-- Elements of a non-empty Python list display. -/
def pLitArr : Nat → List Char → Option (ValList × List Char)
  | 0, _ => none
  | f + 1, l =>
    match pLit f l with
    | none => none
    | some (v, r) =>
      match skipSpTab r with
      | ',' :: r2 => (pLitArr f r2).map (fun p => (.cons v p.1, p.2))
      | ']' :: r2 => some (.cons v .nil, r2)
      | _ => none

/-- Items of a non-empty Python dict display with string-literal keys. -/
def pLitObj : Nat → List Char → Option (ValDict × List Char)
  | 0, _ => none
  | f + 1, l =>
    match skipSpTab l with
    | c :: r0 =>
      if c = '\'' ∨ c = '"' then
        match pyLitStr c r0 with
        | none => none
        | some (k, r1) =>
          match skipSpTab r1 with
          | ':' :: r2 =>
            match pLit f r2 with
            | none => none
            | some (v, r3) =>
              match skipSpTab r3 with
              | ',' :: r4 => (pLitObj f r4).map (fun p => (.cons k v p.1, p.2))
              | '}' :: r4 => some (.cons k v .nil, r4)
              | _ => none
          | _ => none
      else none
    | [] => none

end

/-- Model of `ast.literal_eval` on one line: parse a literal and require
only trailing blanks; `none` models the `ValueError`/`SyntaxError` that
sends `normalize` down its plain-string fallback. -/
def litEval (l : List Char) : Option Val :=
  match pLit (2 * l.length + 2) l with
  | some (v, r) => if skipSpTab r = [] then some v else none
  | none => none

/-- Model of `normalize` (cli.py:108-131): split the evaluator's textual
output into lines; for each line, replace the six-character text
backslash-u-2-0-6-3 by the two-character text backslash-n (both raw
strings in the source!) and try `ast.literal_eval`; on failure treat the
line as a string, quoting it unless `raw`.  The `nulls` parameter of the
source is unused by its body and is omitted. -/
def normalize (data : List Char) (raw : Bool) : List Val :=
  (splitlinesL data).map (fun entry =>
    match litEval (pyReplace uSeq nlSeq entry) with
    | some v => v
    | none =>
      if raw then .str (pyReplace uSeq nlSeq entry)
      else .str (pyReplace uSeq nlSeq ('"' :: entry ++ ['"'])))

/-- Output options consumed by `print_json` (from the CLI flags
`-c -n -l -r`). -/
structure Opts where
  compact : Bool
  nulls : Bool
  lines : Bool
  raw : Bool
deriving DecidableEq

/-- `json.dumps` escaping of one string character (default
`ensure_ascii=True`): controls get named or `\u00xx` escapes, non-ASCII
is `\uxxxx`-escaped (code points above 0xFFFF, which Python encodes as
surrogate pairs, are not modelled and left raw). -/
def dumpsEscC (c : Char) : List Char :=
  if c = '"' then ['\\', '"']
  else if c = '\\' then ['\\', '\\']
  else if c = '\n' then ['\\', 'n']
  else if c = '\t' then ['\\', 't']
  else if c = '\r' then ['\\', 'r']
  else if c.toNat = 8 then ['\\', 'b']
  else if c.toNat = 12 then ['\\', 'f']
  else if c.toNat < 0x20 then
    ['\\', 'u', '0', '0', hexChar (c.toNat / 16), hexChar (c.toNat % 16)]
  else if c.toNat ≤ 0x7e then [c]
  else if c.toNat < 0x10000 then
    ['\\', 'u', hexChar (c.toNat / 4096 % 16), hexChar (c.toNat / 256 % 16),
     hexChar (c.toNat / 16 % 16), hexChar (c.toNat % 16)]
  else [c]

/-- `json.dumps` escaping of a whole string body. -/
def dumpsEscStr : List Char → List Char
  | [] => []
  | c :: cs => dumpsEscC c ++ dumpsEscStr cs

mutual

/-- Model of `json.dumps(v)` with default separators `', '` and `': '`
(the `compact` output path of `print_json`). -/
def dumpsC : Val → List Char
  | .null => chars "null"
  | .bool true => chars "true"
  | .bool false => chars "false" 
  | .int i => intChars i
  | .str s => '"' :: dumpsEscStr s ++ ['"']
  | .list xs => '[' :: dumpsCL xs ++ [']']
  | .dict kvs => '{' :: dumpsCD kvs ++ ['}']

/-- Compact dump of list elements. -/
def dumpsCL : ValList → List Char
  | .nil => []
  | .cons v .nil => dumpsC v
  | .cons v (.cons w tl) => dumpsC v ++ ',' :: ' ' :: dumpsCL (.cons w tl)

/-- Compact dump of dict items. -/
def dumpsCD : ValDict → List Char
  | .nil => []
  | .cons k v .nil => ('"' :: dumpsEscStr k ++ ['"']) ++ ':' :: ' ' :: dumpsC v
  | .cons k v (.cons k2 v2 tl) =>
    (('"' :: dumpsEscStr k ++ ['"']) ++ ':' :: ' ' :: dumpsC v) ++
      ',' :: ' ' :: dumpsCD (.cons k2 v2 tl)

end

/-- `n` spaces of indentation. -/
def spaces (n : Nat) : List Char := List.replicate n ' '

mutual

/-- Model of `json.dumps(v, indent=2)` at indentation level `ind` (the
pretty output path of `print_json`). -/
def dumpsI (ind : Nat) : Val → List Char
  | .null => chars "null"
  | .bool true => chars "true"
  | .bool false => chars "false" 
  | .int i => intChars i
  | .str s => '"' :: dumpsEscStr s ++ ['"']
  | .list .nil => ['[', ']']
  | .list (.cons v tl) =>
    '[' :: '\n' :: dumpsIL (ind + 2) (.cons v tl) ++ '\n' :: spaces ind ++ [']']
  | .dict .nil => ['{', '}']
  | .dict (.cons k v tl) =>
    '{' :: '\n' :: dumpsID (ind + 2) (.cons k v tl) ++ '\n' :: spaces ind ++ ['}']

/-- Pretty dump of list elements, one per line. -/
def dumpsIL (ind : Nat) : ValList → List Char
  | .nil => []
  | .cons v .nil => spaces ind ++ dumpsI ind v
  | .cons v (.cons w tl) =>
    (spaces ind ++ dumpsI ind v) ++ ',' :: '\n' :: dumpsIL ind (.cons w tl)

/-- Pretty dump of dict items, one per line. -/
def dumpsID (ind : Nat) : ValDict → List Char
  | .nil => []
  | .cons k v .nil => spaces ind ++ ('"' :: dumpsEscStr k ++ ['"']) ++ ':' :: ' ' :: dumpsI ind v
  | .cons k v (.cons k2 v2 tl) =>
    (spaces ind ++ ('"' :: dumpsEscStr k ++ ['"']) ++ ':' :: ' ' :: dumpsI ind v) ++
      ',' :: '\n' :: dumpsID ind (.cons k2 v2 tl)

end

/-- The `json.dumps` call of `print_json`: compact or `indent=2`
according to the `-c` flag. -/
def dumpArg (compact : Bool) (v : Val) : List Char :=
  if compact then dumpsC v else dumpsI 0 v

/-- One iteration of the `for line in data[0]` loop of `print_json`
(cli.py:64-87): nulls and bools print as literals, strings raw or
quoted, everything else (numbers, nested containers) JSON-encoded. -/
def printLine (o : Opts) (v : Val) : List Char :=
  match v with
  | .null => if o.nulls then ['n', 'u', 'l', 'l', '\n'] else ['\n']
  | .bool true => ['t', 'r', 'u', 'e', '\n']
  | .bool false => ['f', 'a', 'l', 's', 'e', '\n']
  | .str s => if o.raw then s ++ ['\n'] else '"' :: s ++ ['"', '\n']
  | .int i => dumpArg o.compact (.int i) ++ ['\n']
  | .list xs => dumpArg o.compact (.list xs) ++ ['\n']
  | .dict kvs => dumpArg o.compact (.dict kvs) ++ ['\n']

/-- Lines-mode output for all elements of a list result. -/
def printLinesL (o : Opts) : ValList → List Char
  | .nil => []
  | .cons v tl => printLine o v ++ printLinesL o tl

/-- Iterating a Python dict yields its keys (strings). -/
def keysOf : ValDict → ValList
  | .nil => .nil
  | .cons k _ tl => .cons (.str k) (keysOf tl)

/-- Model of `print_json` (cli.py:55-105), returning the text printed to
stdout.  `data` is the normalized result list; only `data[0]` is
examined.  An empty `data` crashes with an uncaught `IndexError`
(`data[0]`); a lone number matches no `isinstance` branch and prints
nothing. -/
def print_json (data : List Val) (o : Opts) : Except JelloErr (List Char) :=
  match data with
  | [] => .error .crash
  | d0 :: _ =>
    match d0 with
    | .list xs =>
      if o.lines then .ok (printLinesL o xs)
      else .ok (dumpArg o.compact (.list xs) ++ ['\n'])
    | .dict kvs =>
      if o.lines then .ok (printLinesL o (keysOf kvs))
      else .ok (dumpArg o.compact (.dict kvs) ++ ['\n'])
    | .null => .ok (if o.nulls then ['n', 'u', 'l', 'l', '\n'] else ['\n'])
    | .bool true => .ok ['t', 'r', 'u', 'e', '\n']
    | .bool false => .ok ['f', 'a', 'l', 's', 'e', '\n']
    | .str s => .ok (if o.raw then s ++ ['\n'] else '"' :: s ++ ['"', '\n'])
    | .int _ => .ok []

/-- Exceptions the host `exec` can raise while running the constructed
query program, each carrying its `str(e)` text. -/
inductive ExcKind where
  | keyE (txt : List Char) : ExcKind
  | idxE (txt : List Char) : ExcKind
  | synE (txt : List Char) : ExcKind
  | typeE (txt : List Char) : ExcKind
  | otherE (txt : List Char) : ExcKind
deriving DecidableEq

/-- Observable outcome of `exec`-ing the constructed program
`r = None; <query>; print(r)` under `redirect_stdout`: either it
completes having written `printed` to the captured stream, or it raises
partway through having written `printed` so far. -/
inductive ExecOutcome where
  | completes (printed : List Char) : ExecOutcome
  | raises (e : ExcKind) (printed : List Char) : ExecOutcome
deriving DecidableEq

/-- The text `print(exec(...))` appends to the captured stream after
`exec` returns: `exec` always returns `None`. -/
def noneLine : List Char := ['N', 'o', 'n', 'e', '\n']

/-- Model of `pyquery` (cli.py:134-182).  On completion the captured
text is `printed ++ "None\n"` and `output = f.getvalue()[0:-6]`.  In
every `except` branch, `output` still holds its initial `None`, because
the assignment on cli.py:143 runs only after the `exec` on cli.py:142
returns; hence the `TypeError` handler always takes its `output is
None` path and returns success with empty output — its reporting `else`
branch (cli.py:168-171) is unreachable. -/
def pyquery (outcome : ExecOutcome) : Except JelloErr (List Char) :=
  match outcome with
  | .completes printed =>
    let g := printed ++ noneLine
    .ok (g.take (g.length - 6))
  | .raises e _ =>
    match e with
    | .keyE t => .error (.keyErr (chars "jello:  Key does not exist: " ++ t ++ ['\n']))
    | .idxE t => .error (.idxErr (chars "jello:  " ++ t ++ ['\n']))
    | .synE t => .error (.synErr (chars "jello:  " ++ t ++ ['\n']))
    | .typeE _ => .ok []
    | .otherE t => .error (.queryErr (chars "jello:  Query Exception: " ++ t ++ ['\n']))

/-- The query forms exercised by the claims: the identity query
`r = _` (the default) and a member lookup `r = _["k"]`. -/
inductive Query where
  | identity : Query
  | member (k : List Char) : Query
deriving DecidableEq

/-- Python dict lookup by key. -/
def dictLookup (k : List Char) : ValDict → Option Val
  | .nil => none
  | .cons k2 v tl => if k2 = k then some v else dictLookup k tl

/-- Model of the host `exec` on the constructed program for the query
forms above, with `_` bound to `v`: the identity query prints `str(r)`
and a newline; a member lookup on a dict either prints the value found
or raises `KeyError` (whose `str` is the `repr` of the key) before
anything is printed; subscripting a non-dict with a string raises
`TypeError`. -/
def execQuery (q : Query) (v : Val) : ExecOutcome :=
  match q with
  | .identity => .completes (pyStr v ++ ['\n'])
  | .member k =>
    match v with
    | .dict kvs =>
      match dictLookup k kvs with
      | some w => .completes (pyStr w ++ ['\n'])
      | none => .raises (.keyE (pyRepr (.str k))) []
    | _ => .raises (.typeE (chars "subscript type mismatch")) []

/-- The evaluation-to-output tail of `main` (cli.py:257-260), starting
from an already-ingested value: `pyquery`, then `normalize`, then
`print_json`.  `Except.error` models `sys.exit(1)` with the message on
stderr and nothing printed to stdout. -/
def mainFromVal (v : Val) (q : Query) (o : Opts) : Except JelloErr (List Char) :=
  match pyquery (execQuery q v) with
  | .error e => .error e
  | .ok out => print_json (normalize out o.raw) o

/-- The whole pipeline of `main` (cli.py:256-260) on raw input text:
`load_json`, then `pyquery`, then `normalize`, then `print_json`. -/
def mainModel (input : List Char) (q : Query) (o : Opts) : Except JelloErr (List Char) :=
  match load_json input with
  | .error e => .error e
  | .ok v => mainFromVal v q o

/-- The pipeline up to and including `normalize`: the typed value
sequence the normalizer reconstructs (used by the sentinel round-trip
claims). -/
def evalNorm (input : List Char) (q : Query) (raw : Bool) : Except JelloErr (List Val) :=
  match load_json input with
  | .error e => .error e
  | .ok v =>
    match pyquery (execQuery q v) with
    | .error e => .error e
    | .ok out => .ok (normalize out raw)

/-- The effect of ingestion's escape substitution on a string value:
each newline character becomes the sentinel character. -/
def substNL (s : List Char) : List Char :=
  s.map (fun c => if c = '\n' then sent else c)

/-- Parse every line with the model `json.loads`, collecting the values
(the spec's "line-separated sequence of valid JSON values"). -/
def linesVals : List (List Char) → Option ValList
  | [] => some .nil
  | l :: ls =>
    match jloads l, linesVals ls with
    | some v, some vs => some (.cons v vs)
    | _, _ => none

/-! Helper lemmas: characters. -/

/-- Characters with equal code points are equal. -/
theorem toNat_inj (c d : Char) (h : c.toNat = d.toNat) : c = d := by
  have h1 := Char.ofNat_toNat c
  have h2 := Char.ofNat_toNat d
  rw [← h1, ← h2, h]

/-- Code point of a `Char.ofNat` below the surrogate range. -/
theorem toNat_ofNat_lt (n : Nat) (h : n < 55296) : (Char.ofNat n).toNat = n := by
  have hv : n.isValidChar := Or.inl h
  simp only [Char.ofNat, hv, dite_true, Char.ofNatAux, Char.toNat]
  simp [UInt32.toNat, BitVec.toNat_ofNatLt]

/-- The sentinel's code point. -/
theorem sent_toNat : sent.toNat = 0x2063 := toNat_ofNat_lt 0x2063 (by omega)

/-- Characters differ when their code points do. -/
theorem ne_of_toNat {c d : Char} (h : c.toNat ≠ d.toNat) : c ≠ d :=
  fun e => h (congrArg Char.toNat e)

/-- Bounds of a decimal digit character. -/
theorem isDigit_toNat {c : Char} (h : c.isDigit = true) :
    48 ≤ c.toNat ∧ c.toNat ≤ 57 := by
  simp only [Char.isDigit, Bool.and_eq_true, decide_eq_true_eq] at h
  obtain ⟨h1, h2⟩ := h
  exact ⟨h1, h2⟩

/-- A character in a digit range is a digit. -/
theorem isDigit_of_toNat {c : Char} (h1 : 48 ≤ c.toNat) (h2 : c.toNat ≤ 57) :
    c.isDigit = true := by
  simp only [Char.isDigit, Bool.and_eq_true, decide_eq_true_eq]
  exact ⟨h1, h2⟩

/-- Bounds of an ASCII letter. -/
theorem isAsciiLetter_toNat {c : Char} (h : isAsciiLetter c = true) :
    (65 ≤ c.toNat ∧ c.toNat ≤ 90) ∨ (97 ≤ c.toNat ∧ c.toNat ≤ 122) := by
  simp only [isAsciiLetter, Bool.or_eq_true, Bool.and_eq_true, decide_eq_true_eq] at h
  exact h

/-! Helper lemmas: `leadsWith` and `replF`. -/

/-- A pattern is an initial segment of itself followed by anything. -/
theorem leadsWith_append_self (pat t : List Char) : leadsWith pat (pat ++ t) = true := by
  induction pat with
  | nil => rfl
  | cons p ps ih => simp [leadsWith, ih]

/-- Cons step of `leadsWith`. -/
theorem leadsWith_cons (p c : Char) (ps cs : List Char) :
    leadsWith (p :: ps) (c :: cs) = ((p == c) && leadsWith ps cs) := rfl

/-- A successful `leadsWith` splits the text. -/
theorem leadsWith_eq_append {pat l : List Char} (h : leadsWith pat l = true) :
    pat ++ l.drop pat.length = l := by
  induction pat generalizing l with
  | nil => simp
  | cons p ps ih =>
    cases l with
    | nil => simp [leadsWith] at h
    | cons c cs =>
      rw [leadsWith_cons, Bool.and_eq_true, beq_iff_eq] at h
      obtain ⟨h1, h2⟩ := h
      subst h1
      simpa using ih h2

/-- A pattern fits only in a text at least as long. -/
theorem leadsWith_length {pat l : List Char} (h : leadsWith pat l = true) :
    pat.length ≤ l.length := by
  induction pat generalizing l with
  | nil => simp
  | cons p ps ih =>
    cases l with
    | nil => simp [leadsWith] at h
    | cons c cs =>
      rw [leadsWith_cons, Bool.and_eq_true] at h
      have := ih h.2
      simp only [List.length_cons]
      omega

/-- A pattern whose head differs never matches at a cons. -/
theorem leadsWith_cons_ne {p c : Char} (ps cs : List Char) (h : c ≠ p) :
    leadsWith (p :: ps) (c :: cs) = false := by
  rw [leadsWith_cons]
  have : (p == c) = false := beq_eq_false_iff_ne.mpr (fun e => h (Eq.symm e))
  rw [this, Bool.false_and]

/-- Appending a quote on the right does not change whether a
quote-free pattern matches at the front. -/
theorem leadsWith_append_quote {pat : List Char} (hq : '"' ∉ pat) (l : List Char) :
    leadsWith pat (l ++ ['"']) = leadsWith pat l := by
  induction pat generalizing l with
  | nil => rfl
  | cons p ps ih =>
    cases l with
    | nil =>
      have hp : p ≠ '"' := fun e => hq (by simp [e])
      simp only [List.nil_append]
      rw [leadsWith_cons_ne ps [] (fun e => hp (Eq.symm e))]
      rfl
    | cons c cs =>
      simp only [List.cons_append, leadsWith_cons]
      rw [ih (fun m => hq (List.mem_cons_of_mem p m))]

/-- `replF` step when the pattern does not match at the head. -/
theorem replF_no_match {pat : List Char} (repl : List Char) (f : Nat) {c : Char}
    (cs : List Char) (h : leadsWith pat (c :: cs) = false) :
    replF pat repl (f + 1) (c :: cs) = c :: replF pat repl f cs := by
  simp [replF, h]

/-- `replF` step at a matching position, phrased on a cons cell. -/
theorem replF_match_step {pat : List Char} (repl : List Char) (f : Nat) {c : Char}
    (cs : List Char) (h : leadsWith pat (c :: cs) = true) :
    replF pat repl (f + 1) (c :: cs) = repl ++ replF pat repl f ((c :: cs).drop pat.length) := by
  simp [replF, h]

/-- `replF` step when the pattern matches at the head. -/
theorem replF_match (p : Char) (ps repl : List Char) (f : Nat) (t : List Char) :
    replF (p :: ps) repl (f + 1) ((p :: ps) ++ t) = repl ++ replF (p :: ps) repl f t := by
  have hl := leadsWith_append_self (p :: ps) t
  cases t with
  | nil =>
    simp only [List.append_nil] at hl ⊢
    simp [replF, hl, List.drop_left]
  | cons d ds =>
    have : (p :: ps) ++ d :: ds = p :: (ps ++ d :: ds) := rfl
    rw [this] at hl ⊢
    simp only [replF, hl, if_true]
    congr 1
    have hd : (p :: (ps ++ d :: ds)).drop (p :: ps).length = d :: ds :=
      List.drop_left (p :: ps) (d :: ds)
    rw [hd]

/-- Characters never matching the pattern head pass through `replF`. -/
theorem replF_id_of_head_ne (p : Char) (ps repl : List Char) :
    ∀ (l : List Char) (f : Nat), (∀ c ∈ l, c ≠ p) → replF (p :: ps) repl f l = l := by
  intro l
  induction l with
  | nil => intro f _; cases f <;> rfl
  | cons c cs ih =>
    intro f h
    cases f with
    | zero => rfl
    | succ f =>
      have hc : c ≠ p := h c (List.mem_cons_self c cs)
      rw [replF_no_match repl f cs (leadsWith_cons_ne ps cs hc)]
      rw [ih f (fun d m => h d (List.mem_cons_of_mem c m))]

/-- `pyReplace` leaves a text alone when no character matches the
pattern head. -/
theorem pyReplace_id_of_head_ne (p : Char) (ps repl : List Char) (l : List Char)
    (h : ∀ c ∈ l, c ≠ p) : pyReplace (p :: ps) repl l = l :=
  replF_id_of_head_ne p ps repl l l.length h

/-- The occurrence test distributes over cons. -/
theorem hasSeq_cons (pat : List Char) (c : Char) (cs : List Char) :
    hasSeq pat (c :: cs) = (leadsWith pat (c :: cs) || hasSeq pat cs) := rfl

/-- A text with no occurrence of the pattern passes through `replF`. -/
theorem replF_id_of_no_seq (pat repl : List Char) :
    ∀ (l : List Char) (f : Nat), hasSeq pat l = false → replF pat repl f l = l := by
  intro l
  induction l with
  | nil => intro f _; cases f <;> rfl
  | cons c cs ih =>
    intro f h
    rw [hasSeq_cons, Bool.or_eq_false_iff] at h
    cases f with
    | zero => rfl
    | succ f =>
      rw [replF_no_match repl f cs h.1, ih f h.2]

/-- `pyReplace` is the identity on texts with no occurrence of the
pattern. -/
theorem pyReplace_id_of_no_seq (pat repl l : List Char) (h : hasSeq pat l = false) :
    pyReplace pat repl l = l :=
  replF_id_of_no_seq pat repl l l.length h

/-- `replF` does not depend on the fuel once it covers the input
length. -/
theorem replF_fuel (p : Char) (ps repl : List Char) :
    ∀ (n : Nat) (l : List Char) (f g : Nat), l.length ≤ n → l.length ≤ f →
      l.length ≤ g → replF (p :: ps) repl f l = replF (p :: ps) repl g l := by
  intro n
  induction n with
  | zero =>
    intro l f g hn _ _
    have : l = [] := List.eq_nil_of_length_eq_zero (Nat.le_zero.mp hn)
    subst this
    cases f <;> cases g <;> rfl
  | succ n ih =>
    intro l f g hn hf hg
    cases l with
    | nil => cases f <;> cases g <;> rfl
    | cons c cs =>
      simp only [List.length_cons] at hn hf hg
      obtain ⟨f', rfl⟩ : ∃ f', f = f' + 1 := ⟨f - 1, by omega⟩
      obtain ⟨g', rfl⟩ : ∃ g', g = g' + 1 := ⟨g - 1, by omega⟩
      by_cases hb : leadsWith (p :: ps) (c :: cs) = true
      · have hlen := leadsWith_length hb
        simp only [List.length_cons] at hlen
        simp only [replF, hb, if_true]
        congr 1
        exact ih ((c :: cs).drop (p :: ps).length) f' g'
          (by simp only [List.length_drop, List.length_cons, List.length_cons] at *; omega)
          (by simp only [List.length_drop, List.length_cons, List.length_cons] at *; omega)
          (by simp only [List.length_drop, List.length_cons, List.length_cons] at *; omega)
      · have hb' : leadsWith (p :: ps) (c :: cs) = false := by
          cases h : leadsWith (p :: ps) (c :: cs)
          · rfl
          · exact absurd h hb
        rw [replF_no_match repl f' cs hb', replF_no_match repl g' cs hb']
        rw [ih cs f' g' (by omega) (by omega) (by omega)]

/-- `replF` with sufficient fuel agrees with `pyReplace`. -/
theorem replF_eq_pyReplace (p : Char) (ps repl l : List Char) (f : Nat)
    (hf : l.length ≤ f) : replF (p :: ps) repl f l = pyReplace (p :: ps) repl l :=
  replF_fuel p ps repl l.length l f l.length (le_refl _) hf (le_refl _)

/-- A quote-free pattern lets a final quote pass through `replF`
unchanged. -/
theorem replF_append_quote (p : Char) (ps repl : List Char) (hq : '"' ∉ p :: ps) :
    ∀ (n : Nat) (l : List Char) (f : Nat), l.length ≤ n →
      replF (p :: ps) repl f (l ++ ['"']) = replF (p :: ps) repl f l ++ ['"'] := by
  have hp : p ≠ '"' := fun e => hq (by simp [e])
  intro n
  induction n with
  | zero =>
    intro l f hn
    have : l = [] := List.eq_nil_of_length_eq_zero (Nat.le_zero.mp hn)
    subst this
    cases f with
    | zero => rfl
    | succ f =>
      simp only [List.nil_append]
      rw [replF_no_match repl f [] (leadsWith_cons_ne ps [] (fun e => hp (Eq.symm e)))]
      cases f <;> rfl
  | succ n ih =>
    intro l f hn
    cases l with
    | nil =>
      cases f with
      | zero => rfl
      | succ f =>
        simp only [List.nil_append]
        rw [replF_no_match repl f [] (leadsWith_cons_ne ps [] (fun e => hp (Eq.symm e)))]
        cases f <;> rfl
    | cons c cs =>
      simp only [List.length_cons] at hn
      cases f with
      | zero => rfl
      | succ f =>
        have hlw := leadsWith_append_quote hq (c :: cs)
        by_cases hb : leadsWith (p :: ps) (c :: cs) = true
        · have hlen := leadsWith_length hb
          simp only [List.length_cons] at hlen
          have hb2 : leadsWith (p :: ps) (c :: (cs ++ ['"'])) = true := by
            have hcons : (c :: cs) ++ ['"'] = c :: (cs ++ ['"']) := rfl
            rw [← hcons, hlw]
            exact hb
          have hcons : (c :: cs) ++ ['"'] = c :: (cs ++ ['"']) := rfl
          rw [hcons, replF_match_step repl f (cs ++ ['"']) hb2,
            replF_match_step repl f cs hb]
          have hdrop : (c :: (cs ++ ['"'])).drop (p :: ps).length =
              ((c :: cs).drop (p :: ps).length) ++ ['"'] := by
            rw [← hcons]
            exact List.drop_append_of_le_length hlen
          rw [hdrop]
          rw [ih ((c :: cs).drop (p :: ps).length) f
            (by simp only [List.length_drop, List.length_cons]; omega)]
          simp [List.append_assoc]
        · have hb' : leadsWith (p :: ps) (c :: cs) = false := by
            cases h : leadsWith (p :: ps) (c :: cs)
            · rfl
            · exact absurd h hb
          have hb2 : leadsWith (p :: ps) (c :: (cs ++ ['"'])) = false := by
            have hcons : (c :: cs) ++ ['"'] = c :: (cs ++ ['"']) := rfl
            rw [← hcons, hlw]
            exact hb'
          have hcons : (c :: cs) ++ ['"'] = c :: (cs ++ ['"']) := rfl
          rw [hcons, replF_no_match repl f (cs ++ ['"']) hb2,
            replF_no_match repl f cs hb', ih cs f (by omega)]
          rfl

/-! Helper lemmas: `skipWs`, `stripL`, `splitlinesL`. -/

/-- `skipWs` keeps a non-whitespace head. -/
theorem skipWs_cons_not (c : Char) (l : List Char) (h : isJsonWs c = false) :
    skipWs (c :: l) = c :: l := by
  simp [skipWs, List.dropWhile_cons, h]

/-- `skipSpTab` keeps a head that is not a blank. -/
theorem skipSpTab_cons_not {c : Char} (l : List Char)
    (h : (c.toNat = 32 || c.toNat = 9) = false) : skipSpTab (c :: l) = c :: l := by
  simp only [skipSpTab, List.dropWhile_cons, h]
  simp

/-- `stripL` is the identity when neither end is whitespace. -/
theorem stripL_eq_self (l : List Char)
    (h1 : ∀ c, l.head? = some c → isStripWs c = false)
    (h2 : ∀ c, l.getLast? = some c → isStripWs c = false) : stripL l = l := by
  cases l with
  | nil => rfl
  | cons c cs =>
    have hc := h1 c rfl
    unfold stripL
    have e1 : (c :: cs).dropWhile isStripWs = c :: cs := by
      simp [List.dropWhile_cons, hc]
    rw [e1]
    cases hr : (c :: cs).reverse with
    | nil => exact absurd hr (by simp)
    | cons d ds =>
      have hd : isStripWs d = false := by
        apply h2 d
        rw [← List.head?_reverse, hr]
        rfl
      have e2 : (d :: ds).dropWhile isStripWs = d :: ds := by
        simp [List.dropWhile_cons, hd]
      have e3 : (d :: ds).reverse = c :: cs := by
        have h4 := congrArg List.reverse hr
        rw [List.reverse_reverse] at h4
        exact h4.symm
      rw [e2, e3]

/-- `stripL` of all-whitespace text is empty. -/
theorem stripL_eq_nil (l : List Char) (h : ∀ c ∈ l, isStripWs c = true) :
    stripL l = [] := by
  have e1 : l.dropWhile isStripWs = [] := by
    induction l with
    | nil => rfl
    | cons c cs ih =>
      rw [List.dropWhile_cons, if_pos (h c (List.mem_cons_self c cs))]
      exact ih (fun d m => h d (List.mem_cons_of_mem c m))
  unfold stripL
  rw [e1]
  rfl

/-- Unpacks `isLB c = false` into code-point facts. -/
theorem isLB_false {c : Char} (h : isLB c = false) :
    c.toNat ≠ 10 ∧ c.toNat ≠ 13 ∧ c.toNat ≠ 11 ∧ c.toNat ≠ 12 ∧ c.toNat ≠ 28 ∧
      c.toNat ≠ 29 ∧ c.toNat ≠ 30 ∧ c.toNat ≠ 0x85 ∧ c.toNat ≠ 0x2028 ∧
      c.toNat ≠ 0x2029 := by
  simp only [isLB, Bool.or_eq_false_iff, decide_eq_false_iff_not] at h
  tauto

/-- `breakLine` passes over boundary-free text. -/
theorem breakLine_all (l : List Char) (h : ∀ c ∈ l, isLB c = false) :
    breakLine l = (l, []) := by
  induction l with
  | nil => rfl
  | cons c cs ih =>
    have hc := isLB_false (h c (List.mem_cons_self c cs))
    have hcs := ih (fun d m => h d (List.mem_cons_of_mem c m))
    simp [breakLine, hc.2.1, h c (List.mem_cons_self c cs), hcs]

/-- `breakLine` cuts exactly at an explicit newline separator when the
first line has no boundary characters. -/
theorem breakLine_upto (l t : List Char) (h : ∀ c ∈ l, isLB c = false) :
    breakLine (l ++ '\n' :: t) = (l, t) := by
  induction l with
  | nil =>
    simp only [List.nil_append, breakLine]
    rw [if_neg (by decide), if_pos (by decide)]
  | cons c cs ih =>
    have hc := isLB_false (h c (List.mem_cons_self c cs))
    have hcs := ih (fun d m => h d (List.mem_cons_of_mem c m))
    simp [List.cons_append, breakLine, hc.2.1,
      h c (List.mem_cons_self c cs), hcs]

/-- `splitF` of the empty text. -/
theorem splitF_nil (f : Nat) : splitF f [] = [] := by cases f <;> rfl

/-- A non-empty single line splits to itself. -/
theorem splitF_single (l : List Char) (hne : l ≠ []) (h : ∀ c ∈ l, isLB c = false)
    (f : Nat) (hf : 1 ≤ f) : splitF f l = [l] := by
  obtain ⟨f', rfl⟩ : ∃ f', f = f' + 1 := ⟨f - 1, by omega⟩
  obtain ⟨c, cs, rfl⟩ := List.exists_cons_of_ne_nil hne
  simp only [splitF, breakLine_all (c :: cs) h, splitF_nil]

/-- `splitlinesL` of a non-empty boundary-free text. -/
theorem splitlinesL_single (l : List Char) (hne : l ≠ [])
    (h : ∀ c ∈ l, isLB c = false) : splitlinesL l = [l] := by
  have : 1 ≤ l.length := by
    cases l
    · exact absurd rfl hne
    · simp
  exact splitF_single l hne h l.length this

/-- `splitF` inverts `joinNL` on non-empty boundary-free lines. -/
theorem splitF_join (ls : List (List Char))
    (h : ∀ l ∈ ls, l ≠ [] ∧ ∀ c ∈ l, isLB c = false) :
    ∀ (f : Nat), (joinNL ls).length ≤ f → splitF f (joinNL ls) = ls := by
  induction ls with
  | nil => intro f _; exact splitF_nil f
  | cons l ls' ih =>
    intro f hf
    cases ls' with
    | nil =>
      obtain ⟨hne, hlb⟩ := h l (List.mem_cons_self l [])
      have h1 : 1 ≤ (joinNL [l]).length := by
        show 1 ≤ l.length
        cases l
        · exact absurd rfl hne
        · simp
      exact splitF_single l hne hlb f (le_trans h1 hf)
    | cons l2 ls'' =>
      obtain ⟨hne, hlb⟩ := h l (List.mem_cons_self l _)
      have hJ : joinNL (l :: l2 :: ls'') = l ++ '\n' :: joinNL (l2 :: ls'') := rfl
      rw [hJ] at hf ⊢
      simp only [List.length_append, List.length_cons] at hf
      obtain ⟨f', rfl⟩ : ∃ f', f = f' + 1 := ⟨f - 1, by omega⟩
      obtain ⟨c, cs, hl⟩ := List.exists_cons_of_ne_nil hne
      have hcons : l ++ '\n' :: joinNL (l2 :: ls'') =
          c :: (cs ++ '\n' :: joinNL (l2 :: ls'')) := by rw [hl]; rfl
      rw [hcons]
      simp only [splitF]
      rw [← hcons, breakLine_upto l (joinNL (l2 :: ls'')) hlb]
      have hrec := ih (fun m hm => h m (List.mem_cons_of_mem l hm)) f' (by
        have : 1 ≤ l.length := by rw [hl]; simp
        omega)
      simp only [hrec]

/-- `splitlinesL` inverts `joinNL` on non-empty boundary-free lines. -/
theorem splitlinesL_join (ls : List (List Char))
    (h : ∀ l ∈ ls, l ≠ [] ∧ ∀ c ∈ l, isLB c = false) :
    splitlinesL (joinNL ls) = ls :=
  splitF_join ls h (joinNL ls).length (le_refl _)

/-! Helper lemmas: decimal digits and integer tokens. -/

/-- `digitChar` produces digits with the expected code points. -/
theorem digitChar_facts : ∀ n, n < 10 →
    (digitChar n).isDigit = true ∧ (digitChar n).toNat = 48 + n := by decide

/-- `natDigitsF` output is non-empty and all digits. -/
theorem natDigitsF_digits : ∀ (f n : Nat), n < f →
    natDigitsF f n ≠ [] ∧ ∀ c ∈ natDigitsF f n, c.isDigit = true := by
  intro f
  induction f with
  | zero => intro n hn; omega
  | succ f ih =>
    intro n hn
    by_cases h10 : n < 10
    · have e : natDigitsF (f + 1) n = [digitChar n] := by simp [natDigitsF, h10]
      rw [e]
      refine ⟨by simp, ?_⟩
      intro c hm
      rw [List.mem_singleton] at hm
      subst hm
      exact (digitChar_facts n h10).1
    · have e : natDigitsF (f + 1) n = natDigitsF f (n / 10) ++ [digitChar (n % 10)] := by
        simp [natDigitsF, h10]
      have hdiv : n / 10 < f := by
        have hlt : n / 10 < n := Nat.div_lt_self (by omega) (by omega)
        omega
      obtain ⟨hne, hdig⟩ := ih (n / 10) hdiv
      rw [e]
      constructor
      · simp
      · intro c hm
        rw [List.mem_append] at hm
        rcases hm with hm | hm
        · exact hdig c hm
        · rw [List.mem_singleton] at hm
          subst hm
          exact (digitChar_facts (n % 10) (Nat.mod_lt n (by omega))).1

/-- `parseDigits` over a digit block accumulates its value. -/
theorem parseDigits_natDigitsF : ∀ (f n : Nat), n < f → ∀ (rest : List Char) (acc : Nat),
    parseDigits (natDigitsF f n ++ rest) acc =
      parseDigits rest (acc * 10 ^ (natDigitsF f n).length + n) := by
  intro f
  induction f with
  | zero => intro n hn; omega
  | succ f ih =>
    intro n hn rest acc
    by_cases h10 : n < 10
    · have e : natDigitsF (f + 1) n = [digitChar n] := by simp [natDigitsF, h10]
      obtain ⟨hd1, hd2⟩ := digitChar_facts n h10
      rw [e]
      simp only [List.cons_append, List.nil_append, parseDigits, hd1, if_true,
        List.length_singleton, pow_one, hd2]
      congr 1
      omega
    · have e : natDigitsF (f + 1) n = natDigitsF f (n / 10) ++ [digitChar (n % 10)] := by
        simp [natDigitsF, h10]
      have hdiv : n / 10 < f := by
        have hlt : n / 10 < n := Nat.div_lt_self (by omega) (by omega)
        omega
      have hm : n % 10 < 10 := Nat.mod_lt n (by omega)
      obtain ⟨hd1, hd2⟩ := digitChar_facts (n % 10) hm
      rw [e, List.append_assoc, ih (n / 10) hdiv ([digitChar (n % 10)] ++ rest) acc]
      simp only [List.cons_append, List.nil_append, parseDigits, hd1, if_true, hd2,
        List.length_append, List.length_singleton]
      congr 1
      have hpow : 10 ^ ((natDigitsF f (n / 10)).length + 1) =
          10 ^ (natDigitsF f (n / 10)).length * 10 := pow_succ 10 _
      rw [hpow]
      have h48 : 48 + n % 10 - 48 = n % 10 := by omega
      rw [h48]
      generalize 10 ^ (natDigitsF f (n / 10)).length = P
      have expand : (acc * P + n / 10) * 10 = acc * (P * 10) + n / 10 * 10 := by ring
      rw [expand]
      generalize acc * (P * 10) = Q
      omega

/-- `parseDigits` stops at a non-digit. -/
theorem parseDigits_stop (rest : List Char) (acc : Nat)
    (h : ∀ d, rest.head? = some d → d.isDigit = false) :
    parseDigits rest acc = (acc, rest) := by
  cases rest with
  | nil => rfl
  | cons c cs => simp [parseDigits, h c rfl]

/-- Value of a serialized natural number followed by a non-digit. -/
theorem parseDigits_natDigits (n : Nat) (rest : List Char)
    (h : ∀ d, rest.head? = some d → d.isDigit = false) :
    parseDigits (natDigits n ++ rest) 0 = (n, rest) := by
  unfold natDigits
  rw [parseDigits_natDigitsF (n + 1) n (by omega) rest 0]
  rw [parseDigits_stop rest _ h]
  simp

/-- `natDigits` is non-empty and all digits. -/
theorem natDigits_digits (n : Nat) :
    natDigits n ≠ [] ∧ ∀ c ∈ natDigits n, c.isDigit = true :=
  natDigitsF_digits (n + 1) n (by omega)

/-- `pNum` inverts `intChars` when the remainder starts with a
non-digit. -/
theorem pNum_intChars (i : Int) (rest : List Char)
    (h : ∀ d, rest.head? = some d → d.isDigit = false) :
    pNum (intChars i ++ rest) = some (i, rest) := by
  by_cases hneg : i < 0
  · have e : intChars i = '-' :: natDigits (-i).toNat := by simp [intChars, hneg]
    obtain ⟨hne, hdig⟩ := natDigits_digits (-i).toNat
    obtain ⟨d, A, hA⟩ := List.exists_cons_of_ne_nil hne
    have hdd : d.isDigit = true := hdig d (by rw [hA]; exact List.mem_cons_self d A)
    have hstep : intChars i ++ rest = '-' :: (natDigits (-i).toNat ++ rest) := by
      rw [e]; rfl
    rw [hstep]
    have hcons : natDigits (-i).toNat ++ rest = d :: (A ++ rest) := by rw [hA]; rfl
    simp only [pNum, if_pos rfl, hcons, hdd, if_true]
    rw [← hcons, parseDigits_natDigits (-i).toNat rest h]
    have heq : -(((-i).toNat : Nat) : Int) = i := by omega
    rw [heq]
  · have hpos : 0 ≤ i := by omega
    have e : intChars i = natDigits i.toNat := by simp [intChars, hneg]
    obtain ⟨hne, hdig⟩ := natDigits_digits i.toNat
    obtain ⟨d, A, hA⟩ := List.exists_cons_of_ne_nil hne
    have hdd : d.isDigit = true := hdig d (by rw [hA]; exact List.mem_cons_self d A)
    have hdt := isDigit_toNat hdd
    have hdm : d ≠ '-' := by
      intro e2
      rw [e2] at hdt
      revert hdt
      decide
    have hstep : intChars i ++ rest = d :: (A ++ rest) := by rw [e, hA]; rfl
    rw [hstep]
    simp only [pNum, if_neg hdm, hdd, if_true]
    have hback : d :: (A ++ rest) = natDigits i.toNat ++ rest := by rw [hA]; rfl
    rw [hback, parseDigits_natDigits i.toNat rest h]
    have heq : ((i.toNat : Nat) : Int) = i := Int.toNat_of_nonneg hpos
    rw [heq]

/-! Helper lemmas: serializer head and tail shape. -/

/-- Every serialized value starts with a recognizable first character. -/
theorem serV_head (v : Val) : ∃ c t, serV v = c :: t ∧
    (c = 'n' ∨ c = 't' ∨ c = 'f' ∨ c = '"' ∨ c = '[' ∨ c = '{' ∨ c = '-' ∨
      c.isDigit = true) := by
  cases v with
  | null => exact ⟨'n', _, rfl, by tauto⟩
  | bool b =>
    cases b
    · exact ⟨'f', _, rfl, by tauto⟩
    · exact ⟨'t', _, rfl, by tauto⟩
  | int i =>
    by_cases hneg : i < 0
    · refine ⟨'-', natDigits (-i).toNat, ?_, by tauto⟩
      simp [serV, intChars, hneg]
    · have e : serV (.int i) = natDigits i.toNat := by simp [serV, intChars, hneg]
      obtain ⟨hne, hdig⟩ := natDigits_digits i.toNat
      obtain ⟨d, A, hA⟩ := List.exists_cons_of_ne_nil hne
      refine ⟨d, A, by rw [e, hA], ?_⟩
      have := hdig d (by rw [hA]; exact List.mem_cons_self d A)
      tauto
  | str s => exact ⟨'"', _, rfl, by tauto⟩
  | list xs => exact ⟨'[', _, rfl, by tauto⟩
  | dict kvs => exact ⟨'{', _, rfl, by tauto⟩

/-- Facts about a serialized value's first character. -/
theorem serV_head_facts {c : Char}
    (h : c = 'n' ∨ c = 't' ∨ c = 'f' ∨ c = '"' ∨ c = '[' ∨ c = '{' ∨ c = '-' ∨
      c.isDigit = true) :
    isJsonWs c = false ∧ isStripWs c = false ∧ c ≠ ']' ∧ c ≠ '}' ∧ c ≠ ',' := by
  rcases h with h | h | h | h | h | h | h | h
  · subst h; refine ⟨by decide, by decide, by decide, by decide, by decide⟩
  · subst h; refine ⟨by decide, by decide, by decide, by decide, by decide⟩
  · subst h; refine ⟨by decide, by decide, by decide, by decide, by decide⟩
  · subst h; refine ⟨by decide, by decide, by decide, by decide, by decide⟩
  · subst h; refine ⟨by decide, by decide, by decide, by decide, by decide⟩
  · subst h; refine ⟨by decide, by decide, by decide, by decide, by decide⟩
  · subst h; refine ⟨by decide, by decide, by decide, by decide, by decide⟩
  · have hb := isDigit_toNat h
    refine ⟨?_, ?_, ?_, ?_, ?_⟩
    · simp only [isJsonWs, Bool.or_eq_false_iff, decide_eq_false_iff_not]
      omega
    · simp only [isStripWs, Bool.or_eq_false_iff, decide_eq_false_iff_not]
      omega
    · intro e; rw [e] at h; revert h; decide
    · intro e; rw [e] at h; revert h; decide
    · intro e; rw [e] at h; revert h; decide

/-- Every serialized value ends with a non-whitespace character. -/
theorem serV_last (v : Val) : ∃ ini c, serV v = ini ++ [c] ∧ isStripWs c = false := by
  cases v with
  | null => exact ⟨['n', 'u', 'l'], 'l', rfl, by decide⟩
  | bool b =>
    cases b
    · exact ⟨['f', 'a', 'l', 's'], 'e', rfl, by decide⟩
    · exact ⟨['t', 'r', 'u'], 'e', rfl, by decide⟩
  | int i =>
    have key : ∀ (A : List Char), A ≠ [] → (∀ c ∈ A, c.isDigit = true) →
        ∃ ini c, A = ini ++ [c] ∧ isStripWs c = false := by
      intro A hne hdig
      refine ⟨A.dropLast, A.getLast hne, (List.dropLast_append_getLast hne).symm, ?_⟩
      have hmem : A.getLast hne ∈ A := List.getLast_mem hne
      have hb := isDigit_toNat (hdig _ hmem)
      simp only [isStripWs, Bool.or_eq_false_iff, decide_eq_false_iff_not]
      omega
    obtain ⟨hne, hdig⟩ := natDigits_digits i.toNat
    obtain ⟨hne2, hdig2⟩ := natDigits_digits (-i).toNat
    by_cases hneg : i < 0
    · have e : serV (.int i) = '-' :: natDigits (-i).toNat := by simp [serV, intChars, hneg]
      obtain ⟨ini, c, hc, hw⟩ := key _ hne2 hdig2
      exact ⟨'-' :: ini, c, by rw [e, hc]; rfl, hw⟩
    · have e : serV (.int i) = natDigits i.toNat := by simp [serV, intChars, hneg]
      obtain ⟨ini, c, hc, hw⟩ := key _ hne hdig
      exact ⟨ini, c, by rw [e, hc], hw⟩
  | str s => exact ⟨'"' :: escStr s, '"', rfl, by decide⟩
  | list xs => exact ⟨'[' :: serL xs, ']', rfl, by decide⟩
  | dict kvs => exact ⟨'{' :: serD kvs, '}', rfl, by decide⟩

/-- Serialized values survive `str.strip()` unchanged. -/
theorem stripL_serV (v : Val) : stripL (serV v) = serV v := by
  obtain ⟨c, t, hh, hfacts⟩ := serV_head v
  obtain ⟨ini, d, hl, hw⟩ := serV_last v
  apply stripL_eq_self
  · intro x hx
    rw [hh] at hx
    simp only [List.head?_cons, Option.some_inj] at hx
    subst hx
    exact (serV_head_facts hfacts).2.1
  · intro x hx
    rw [hl, List.getLast?_concat] at hx
    simp only [Option.some_inj] at hx
    subst hx
    exact hw

/-- Leading whitespace skip passes over a serialized value. -/
theorem skipWs_serV (v : Val) (rest : List Char) :
    skipWs (serV v ++ rest) = serV v ++ rest := by
  obtain ⟨c, t, hh, hfacts⟩ := serV_head v
  rw [hh]
  exact skipWs_cons_not _ _ (serV_head_facts hfacts).1

/-! Helper lemmas: JSON string escaping round trip. -/

/-- `fromHex` inverts `hexChar` on nibbles. -/
theorem hexChar_fromHex : ∀ n, n < 16 → fromHex (hexChar n) = some n := by decide

/-- `pStr` at the closing quote. -/
theorem pStr_quote (rest : List Char) : pStr ('"' :: rest) = some ([], rest) := by
  rw [pStr.eq_def]
  simp

/-- `pStr` at a raw (unescaped) character. -/
theorem pStr_raw {c : Char} (t : List Char) (h1 : ¬c = '"') (h2 : ¬c = '\\')
    (h3 : ¬c.toNat < 0x20) :
    pStr (c :: t) = (pStr t).map (fun p => (c :: p.1, p.2)) := by
  rw [pStr.eq_def]
  simp [h1, h2, h3]

/-- A serialized string body parses back to the original characters. -/
theorem pStr_escStr (s : List Char) : ∀ rest, pStr (escStr s ++ ('"' :: rest)) = some (s, rest) := by
  induction s with
  | nil =>
    intro rest
    simp only [escStr, List.nil_append]
    exact pStr_quote rest
  | cons c cs ih =>
    intro rest
    have hstep : escStr (c :: cs) ++ ('"' :: rest) = escC c ++ (escStr cs ++ ('"' :: rest)) := by
      simp [escStr, List.append_assoc]
    rw [hstep]
    by_cases h1 : c = '"'
    · subst h1
      have he : escC '"' = ['\\', '"'] := by simp [escC]
      rw [he]
      simp only [List.cons_append, List.nil_append]
      rw [pStr.eq_def]
      simp [ih]
    by_cases h2 : c = '\\'
    · subst h2
      have he : escC '\\' = ['\\', '\\'] := by simp [escC]
      rw [he]
      simp only [List.cons_append, List.nil_append]
      rw [pStr.eq_def]
      simp [ih]
    by_cases h3 : c = '\n'
    · subst h3
      have he : escC '\n' = ['\\', 'n'] := by simp [escC]
      rw [he]
      simp only [List.cons_append, List.nil_append]
      rw [pStr.eq_def]
      simp [ih]
    by_cases h4 : c = '\t'
    · subst h4
      have he : escC '\t' = ['\\', 't'] := by simp [escC]
      rw [he]
      simp only [List.cons_append, List.nil_append]
      rw [pStr.eq_def]
      simp [ih]
    by_cases h5 : c = '\r'
    · subst h5
      have he : escC '\r' = ['\\', 'r'] := by simp [escC]
      rw [he]
      simp only [List.cons_append, List.nil_append]
      rw [pStr.eq_def]
      simp [ih]
    by_cases h6 : c.toNat = 8
    · have hc : Char.ofNat 8 = c := by
        apply toNat_inj
        rw [h6, toNat_ofNat_lt 8 (by omega)]
      have he : escC c = ['\\', 'b'] := by simp [escC, h1, h2, h3, h4, h5, h6]
      rw [he]
      simp only [List.cons_append, List.nil_append]
      rw [pStr.eq_def]
      simp [ih]
      exact hc
    by_cases h7 : c.toNat = 12
    · have hc : Char.ofNat 12 = c := by
        apply toNat_inj
        rw [h7, toNat_ofNat_lt 12 (by omega)]
      have he : escC c = ['\\', 'f'] := by simp [escC, h1, h2, h3, h4, h5, h6, h7]
      rw [he]
      simp only [List.cons_append, List.nil_append]
      rw [pStr.eq_def]
      simp [ih]
      exact hc
    by_cases h8 : c.toNat < 0x20
    · have he : escC c = ['\\', 'u', '0', '0', hexChar (c.toNat / 16), hexChar (c.toNat % 16)] := by
        simp [escC, h1, h2, h3, h4, h5, h6, h7, h8]
      have ha : fromHex (hexChar (c.toNat / 16)) = some (c.toNat / 16) :=
        hexChar_fromHex _ (by omega)
      have hb : fromHex (hexChar (c.toNat % 16)) = some (c.toNat % 16) :=
        hexChar_fromHex _ (by omega)
      have hval : ((0 * 16 + 0) * 16 + c.toNat / 16) * 16 + c.toNat % 16 = c.toNat := by omega
      have hlt : c.toNat < 0xd800 := by omega
      have hofn : Char.ofNat c.toNat = c := Char.ofNat_toNat c
      rw [he]
      simp only [List.cons_append, List.nil_append]
      rw [pStr.eq_def]
      have h0 : fromHex '0' = some 0 := by decide
      simp [h0, ha, hb, hval, hlt, hofn, ih]
      have hval2 : c.toNat / 16 * 16 + c.toNat % 16 = c.toNat := by omega
      rw [hval2]
      exact ⟨hlt, hofn⟩
    · have he : escC c = [c] := by simp [escC, h1, h2, h3, h4, h5, h6, h7, h8]
      rw [he]
      simp only [List.cons_append, List.nil_append]
      rw [pStr_raw _ h1 h2 h8, ih]
      rfl

/-! The parse ∘ serialize round trip. -/

/-- Transfers a digit-freeness fact to a cons head. -/
theorem noDigit_cons {c : Char} (r : List Char) (h : c.isDigit = false) :
    ∀ d, ((c :: r).head? = some d) → d.isDigit = false := by
  intro d hd
  simp only [List.head?_cons, Option.some_inj] at hd
  subst hd
  exact h

/-- Every serialized member list starts with a quote. -/
theorem serD_head (k : List Char) (v : Val) (tl : ValDict) :
    ∃ t, serD (.cons k v tl) = '"' :: t := by
  cases tl with
  | nil => exact ⟨_, rfl⟩
  | cons k2 v2 tl2 => exact ⟨_, rfl⟩

/-- Evaluating `pV` on a bracket head. -/
theorem pV_bracket (f : Nat) (X : List Char) :
    pV (f + 1) ('[' :: X) =
      (match skipWs X with
       | ']' :: r2 => some (.list .nil, r2)
       | r2 => (pArr f r2).map (fun p => (.list p.1, p.2))) := by
  rw [pV.eq_2, skipWs_cons_not '[' X (by decide)]
  simp

/-- Evaluating `pV` on a brace head. -/
theorem pV_brace (f : Nat) (X : List Char) :
    pV (f + 1) ('{' :: X) =
      (match skipWs X with
       | '}' :: r2 => some (.dict .nil, r2)
       | r2 => (pObj f r2).map (fun p => (.dict p.1, p.2))) := by
  rw [pV.eq_2, skipWs_cons_not '{' X (by decide)]
  simp

mutual

/-- A serialized value parses back to itself, leaving the remainder,
whenever the fuel covers its weight and the remainder does not begin
with a digit. -/
theorem pV_rt (v : Val) : ∀ (f : Nat) (rest : List Char), weightV v ≤ f →
    (∀ d, rest.head? = some d → d.isDigit = false) →
    pV f (serV v ++ rest) = some (v, rest) := by
  intro f rest hw hnd
  have hpos : 1 ≤ weightV v := by cases v <;> simp [weightV]
  obtain ⟨f, rfl⟩ : ∃ g, f = g + 1 := ⟨f - 1, by omega⟩
  cases v with
  | null =>
    have hskip : skipWs (serV .null ++ rest) = 'n' :: ('u' :: 'l' :: 'l' :: rest) :=
      skipWs_serV .null rest
    rw [pV.eq_2, hskip]
    simp [leadsWith]
  | bool b =>
    cases b
    · have hskip : skipWs (serV (.bool false) ++ rest) =
          'f' :: ('a' :: 'l' :: 's' :: 'e' :: rest) := skipWs_serV (.bool false) rest
      rw [pV.eq_2, hskip]
      simp [leadsWith]
    · have hskip : skipWs (serV (.bool true) ++ rest) =
          't' :: ('r' :: 'u' :: 'e' :: rest) := skipWs_serV (.bool true) rest
      rw [pV.eq_2, hskip]
      simp [leadsWith]
  | int i =>
    by_cases hneg : i < 0
    · have e : serV (.int i) = '-' :: natDigits (-i).toNat := by simp [serV, intChars, hneg]
      have hskip : skipWs (serV (.int i) ++ rest) =
          '-' :: (natDigits (-i).toNat ++ rest) := by
        have h0 := skipWs_serV (.int i) rest
        rw [e] at h0 ⊢
        exact h0
      have hnum : pNum ('-' :: (natDigits (-i).toNat ++ rest)) = some (i, rest) := by
        have h3 : '-' :: (natDigits (-i).toNat ++ rest) = intChars i ++ rest := by
          simp [intChars, hneg]
        rw [h3]
        exact pNum_intChars i rest hnd
      rw [pV.eq_2, hskip]
      simp [hnum]
    · have e : serV (.int i) = natDigits i.toNat := by simp [serV, intChars, hneg]
      obtain ⟨hne, hdig⟩ := natDigits_digits i.toNat
      obtain ⟨d, A, hA⟩ := List.exists_cons_of_ne_nil hne
      have hdd : d.isDigit = true := hdig d (by rw [hA]; exact List.mem_cons_self d A)
      have hdt := isDigit_toNat hdd
      have hskip : skipWs (serV (.int i) ++ rest) = d :: (A ++ rest) := by
        have h0 := skipWs_serV (.int i) rest
        rw [e, hA] at h0 ⊢
        exact h0
      have hn : ¬d = 'n' := by intro h2; rw [h2] at hdt; revert hdt; decide
      have ht : ¬d = 't' := by intro h2; rw [h2] at hdt; revert hdt; decide
      have hf : ¬d = 'f' := by intro h2; rw [h2] at hdt; revert hdt; decide
      have hq : ¬d = '"' := by intro h2; rw [h2] at hdt; revert hdt; decide
      have hbr : ¬d = '[' := by intro h2; rw [h2] at hdt; revert hdt; decide
      have hbc : ¬d = '{' := by intro h2; rw [h2] at hdt; revert hdt; decide
      have hnum : pNum (d :: (A ++ rest)) = some (i, rest) := by
        have h3 : d :: (A ++ rest) = intChars i ++ rest := by
          rw [show intChars i = natDigits i.toNat from by simp [intChars, hneg], hA]
          rfl
        rw [h3]
        exact pNum_intChars i rest hnd
      rw [pV.eq_2, hskip]
      simp [hn, ht, hf, hq, hbr, hbc, hdd, hnum]
  | str s =>
    have hskip : skipWs (serV (.str s) ++ rest) = '"' :: (escStr s ++ ('"' :: rest)) := by
      have h0 := skipWs_serV (.str s) rest
      have harg : serV (.str s) ++ rest = '"' :: (escStr s ++ ('"' :: rest)) := by
        simp [serV, List.append_assoc]
      rw [harg] at h0 ⊢
      exact h0
    rw [pV.eq_2, hskip]
    simp [pStr_escStr s rest]
  | list xs =>
    cases xs with
    | nil =>
      have harg : serV (.list .nil) ++ rest = '[' :: (']' :: rest) := rfl
      rw [harg, pV_bracket, skipWs_cons_not ']' rest (by decide)]
      simp
    | cons v tl =>
      have hwf : weightL (.cons v tl) ≤ f := by
        simp only [weightV] at hw
        omega
      have harr := pArr_rt (.cons v tl) f rest hwf (by intro h; cases h)
      obtain ⟨c0, t0, hh, hfacts⟩ := serV_head v
      have hfs := serV_head_facts hfacts
      obtain ⟨tt, hL⟩ : ∃ tt, serL (.cons v tl) ++ (']' :: rest) = c0 :: tt := by
        cases tl with
        | nil => exact ⟨t0 ++ (']' :: rest), by rw [serL, hh]; rfl⟩
        | cons w tl2 =>
          refine ⟨t0 ++ (',' :: (serL (.cons w tl2) ++ (']' :: rest))), ?_⟩
          rw [serL, hh]
          simp [List.append_assoc]
      have hskipc : skipWs (serL (.cons v tl) ++ (']' :: rest)) = c0 :: tt := by
        rw [hL]
        exact skipWs_cons_not _ _ hfs.1
      have harg : serV (.list (.cons v tl)) ++ rest =
          '[' :: (serL (.cons v tl) ++ (']' :: rest)) := by
        simp [serV, List.append_assoc]
      rw [harg, pV_bracket, hskipc]
      split
      · rename_i r2 heq
        exfalso
        injection heq with h1 h2
        exact hfs.2.2.1 h1
      · rw [← hL, harr]
        rfl
  | dict kvs =>
    cases kvs with
    | nil =>
      have harg : serV (.dict .nil) ++ rest = '{' :: ('}' :: rest) := rfl
      rw [harg, pV_brace, skipWs_cons_not '}' rest (by decide)]
      simp
    | cons k v tl =>
      have hwf : weightD (.cons k v tl) ≤ f := by
        simp only [weightV] at hw
        omega
      have hobj := pObj_rt (.cons k v tl) f rest hwf (by intro h; cases h)
      obtain ⟨t0, hh⟩ := serD_head k v tl
      have hD : serD (.cons k v tl) ++ ('}' :: rest) = '"' :: (t0 ++ '}' :: rest) := by
        rw [hh]
        rfl
      have hskipc : skipWs (serD (.cons k v tl) ++ ('}' :: rest)) =
          '"' :: (t0 ++ '}' :: rest) := by
        rw [hD]
        exact skipWs_cons_not _ _ (by decide)
      have harg : serV (.dict (.cons k v tl)) ++ rest =
          '{' :: (serD (.cons k v tl) ++ ('}' :: rest)) := by
        simp [serV, List.append_assoc]
      rw [harg, pV_brace, hskipc]
      split
      · rename_i r2 heq
        exfalso
        injection heq with h1 h2
        revert h1
        decide
      · rw [← hD, hobj]
        rfl

/-- A serialized non-empty element list parses back through `pArr`. -/
theorem pArr_rt (xs : ValList) : ∀ (f : Nat) (rest : List Char), weightL xs ≤ f →
    xs ≠ .nil → pArr f (serL xs ++ (']' :: rest)) = some (xs, rest) := by
  intro f rest hw hne
  cases xs with
  | nil => exact absurd rfl hne
  | cons v tl =>
    obtain ⟨f, rfl⟩ : ∃ g, f = g + 1 := by
      simp only [weightL] at hw
      exact ⟨f - 1, by omega⟩
    cases tl with
    | nil =>
      have hv := pV_rt v f (']' :: rest) (by simp only [weightL] at hw; omega)
        (noDigit_cons rest (by decide))
      have harg : serL (.cons v .nil) ++ (']' :: rest) = serV v ++ (']' :: rest) := by
        rw [serL]
      rw [pArr.eq_2, harg, hv]
      simp [skipWs_cons_not ']' rest (by decide)]
    | cons w tl2 =>
      have harg : serL (.cons v (.cons w tl2)) ++ (']' :: rest) =
          serV v ++ (',' :: (serL (.cons w tl2) ++ (']' :: rest))) := by
        rw [serL]
        simp [List.append_assoc]
      have hv := pV_rt v f (',' :: (serL (.cons w tl2) ++ (']' :: rest)))
        (by simp only [weightL] at hw; omega) (noDigit_cons _ (by decide))
      have hrec := pArr_rt (.cons w tl2) f rest
        (by simp only [weightL] at hw ⊢; omega) (by intro h; cases h)
      rw [pArr.eq_2, harg, hv]
      simp [skipWs_cons_not ',' _ (by decide), hrec]

/-- A serialized non-empty member list parses back through `pObj`. -/
theorem pObj_rt (kvs : ValDict) : ∀ (f : Nat) (rest : List Char), weightD kvs ≤ f →
    kvs ≠ .nil → pObj f (serD kvs ++ ('}' :: rest)) = some (kvs, rest) := by
  intro f rest hw hne
  cases kvs with
  | nil => exact absurd rfl hne
  | cons k v tl =>
    obtain ⟨f, rfl⟩ : ∃ g, f = g + 1 := by
      simp only [weightD] at hw
      exact ⟨f - 1, by omega⟩
    cases tl with
    | nil =>
      have hD : serD (.cons k v .nil) ++ ('}' :: rest) =
          '"' :: (escStr k ++ ('"' :: (':' :: (serV v ++ ('}' :: rest))))) := by
        rw [serD]
        simp [List.append_assoc]
      have hv := pV_rt v f ('}' :: rest) (by simp only [weightD] at hw; omega)
        (noDigit_cons rest (by decide))
      rw [hD, pObj.eq_2]
      rw [pStr_escStr k (':' :: (serV v ++ ('}' :: rest)))]
      simp [skipWs_cons_not ':' _ (by decide), hv, skipWs_cons_not '}' rest (by decide)]
    | cons k2 v2 tl2 =>
      have hD : serD (.cons k v (.cons k2 v2 tl2)) ++ ('}' :: rest) =
          '"' :: (escStr k ++ ('"' :: (':' :: (serV v ++
            (',' :: (serD (.cons k2 v2 tl2) ++ ('}' :: rest))))))) := by
        rw [serD]
        simp [List.append_assoc]
      have hv := pV_rt v f (',' :: (serD (.cons k2 v2 tl2) ++ ('}' :: rest)))
        (by simp only [weightD] at hw; omega) (noDigit_cons _ (by decide))
      have hrec := pObj_rt (.cons k2 v2 tl2) f rest
        (by simp only [weightD] at hw ⊢; omega) (by intro h; cases h)
      obtain ⟨t0, hh⟩ := serD_head k2 v2 tl2
      have hskip3 : skipWs (serD (.cons k2 v2 tl2) ++ ('}' :: rest)) =
          serD (.cons k2 v2 tl2) ++ ('}' :: rest) := by
        rw [hh]
        exact skipWs_cons_not _ _ (by decide)
      rw [hD, pObj.eq_2]
      rw [pStr_escStr k (':' :: (serV v ++ (',' :: (serD (.cons k2 v2 tl2) ++ ('}' :: rest)))))]
      simp [skipWs_cons_not ':' _ (by decide), hv, skipWs_cons_not ',' _ (by decide),
        hskip3, hrec]

end

/-- Integer text is never empty. -/
theorem intChars_ne_nil (i : Int) : intChars i ≠ [] := by
  by_cases hneg : i < 0
  · simp [intChars, hneg]
  · have e : intChars i = natDigits i.toNat := by simp [intChars, hneg]
    rw [e]
    exact (natDigits_digits i.toNat).1

mutual

/-- The parser fuel bound: a value's weight is covered by twice its
serialized length. -/
theorem weightV_le (v : Val) : weightV v ≤ 2 * (serV v).length := by
  cases v with
  | null => decide
  | bool b => cases b <;> decide
  | int i =>
    have hne := intChars_ne_nil i
    have hlen : 1 ≤ (intChars i).length := by
      cases h : intChars i with
      | nil => exact absurd h hne
      | cons a b => simp
    have e1 : weightV (.int i) = 1 := rfl
    have e2 : serV (.int i) = intChars i := rfl
    rw [e1, e2]
    omega
  | str s =>
    have e1 : weightV (.str s) = 1 := rfl
    have e2 : serV (.str s) = '"' :: escStr s ++ ['"'] := rfl
    rw [e1, e2]
    simp only [List.length_append, List.length_cons, List.length_singleton]
    omega
  | list xs =>
    have h := weightL_le xs
    have e1 : weightV (.list xs) = 1 + weightL xs := rfl
    have e2 : serV (.list xs) = '[' :: serL xs ++ [']'] := rfl
    rw [e1, e2]
    simp only [List.length_append, List.length_cons, List.length_singleton]
    omega
  | dict kvs =>
    have h := weightD_le kvs
    have e1 : weightV (.dict kvs) = 1 + weightD kvs := rfl
    have e2 : serV (.dict kvs) = '{' :: serD kvs ++ ['}'] := rfl
    rw [e1, e2]
    simp only [List.length_append, List.length_cons, List.length_singleton]
    omega

/-- Weight bound for serialized element lists. -/
theorem weightL_le (xs : ValList) : weightL xs ≤ 2 * (serL xs).length + 3 := by
  cases xs with
  | nil => simp [weightL, serL]
  | cons v tl =>
    cases tl with
    | nil =>
      have hv := weightV_le v
      have e1 : weightL (.cons v .nil) = 1 + weightV v + 1 := rfl
      have e2 : serL (.cons v .nil) = serV v := rfl
      rw [e1, e2]
      omega
    | cons w tl2 =>
      have hv := weightV_le v
      have htl := weightL_le (.cons w tl2)
      have e1 : weightL (.cons v (.cons w tl2)) =
          1 + weightV v + weightL (.cons w tl2) := rfl
      have e2 : serL (.cons v (.cons w tl2)) = serV v ++ ',' :: serL (.cons w tl2) := rfl
      rw [e1, e2]
      simp only [List.length_append, List.length_cons]
      omega

/-- Weight bound for serialized member lists. -/
theorem weightD_le (kvs : ValDict) : weightD kvs ≤ 2 * (serD kvs).length + 3 := by
  cases kvs with
  | nil => simp [weightD, serD]
  | cons k v tl =>
    cases tl with
    | nil =>
      have hv := weightV_le v
      have e1 : weightD (.cons k v .nil) = 1 + weightV v + 1 := rfl
      have e2 : serD (.cons k v .nil) = '"' :: escStr k ++ '"' :: ':' :: serV v := rfl
      rw [e1, e2]
      simp only [List.length_append, List.length_cons]
      omega
    | cons k2 v2 tl2 =>
      have hv := weightV_le v
      have htl := weightD_le (.cons k2 v2 tl2)
      have e1 : weightD (.cons k v (.cons k2 v2 tl2)) =
          1 + weightV v + weightD (.cons k2 v2 tl2) := rfl
      have e2 : serD (.cons k v (.cons k2 v2 tl2)) =
          ('"' :: escStr k ++ '"' :: ':' :: serV v) ++ ',' :: serD (.cons k2 v2 tl2) := rfl
      rw [e1, e2]
      simp only [List.length_append, List.length_cons]
      omega

end

/-- `json.loads` inverts serialization. -/
theorem jloads_serV (v : Val) : jloads (serV v) = some v := by
  unfold jloads
  have h1 : pV (2 * (serV v).length + 2) (serV v ++ []) = some (v, []) :=
    pV_rt v _ [] (by have := weightV_le v; omega) (by intro d hd; cases hd)
  rw [List.append_nil] at h1
  rw [h1]
  rfl

/-- `load_json` inverts serialization whenever the serialized text does
not contain the two-character sequence backslash-n (otherwise the
sentinel substitution of cli.py:187 alters it). -/
theorem load_json_serV (v : Val) (h : hasSeq nlSeq (serV v) = false) :
    load_json (serV v) = .ok v := by
  unfold load_json
  rw [stripL_serV v, pyReplace_id_of_no_seq _ _ _ h]
  simp only []
  rw [jloads_serV v]

/-! Helper lemmas: the evaluator bridge's output extraction. -/

/-- `pyquery` on a completed run recovers exactly what the query printed
before its final newline: the slice `[0:-6]` removes the trailing
newline of `print(r)` together with the `None` line that
`print(exec(...))` appends. -/
theorem pyquery_completes (u : List Char) : pyquery (.completes (u ++ ['\n'])) = .ok u := by
  simp only [pyquery]
  congr 1
  have h1 : (u ++ ['\n']) ++ noneLine = u ++ (['\n'] ++ noneLine) := by
    simp [List.append_assoc]
  rw [h1]
  have h2 : (u ++ (['\n'] ++ noneLine)).length = u.length + 6 := by simp [noneLine]
  rw [h2]
  have h3 : u.length + 6 - 6 = u.length := by omega
  rw [h3]
  exact List.take_left u _

/-! Helper lemmas: character classes of the sentinel round trip. -/

/-- Code-point content of the letter-or-sentinel character class. -/
theorem class_toNat {c : Char} (h : isAsciiLetter c = true ∨ c = sent) :
    (65 ≤ c.toNat ∧ c.toNat ≤ 90) ∨ (97 ≤ c.toNat ∧ c.toNat ≤ 122) ∨
      c.toNat = 0x2063 := by
  rcases h with h | h
  · rcases isAsciiLetter_toNat h with h | h
    · exact Or.inl h
    · exact Or.inr (Or.inl h)
  · subst h
    exact Or.inr (Or.inr sent_toNat)

/-- Characters differ from a given literal when the code points say so. -/
theorem ne_char_of_toNat {c d : Char} {n : Nat} (hd : d.toNat = n) (h : c.toNat ≠ n) :
    c ≠ d := by
  intro e
  rw [e, hd] at h
  exact h rfl

/-- ASCII letters need no JSON escaping. -/
theorem escC_letter {c : Char} (h : isAsciiLetter c = true) : escC c = [c] := by
  have hb : 65 ≤ c.toNat ∧ c.toNat ≤ 122 := by
    rcases isAsciiLetter_toNat h with ⟨a, b⟩ | ⟨a, b⟩ <;> exact ⟨by omega, by omega⟩
  unfold escC
  rw [if_neg (ne_char_of_toNat (show ('"').toNat = 34 from rfl) (by omega)),
    if_neg (ne_char_of_toNat (show ('\\').toNat = 92 from rfl) (by
      rcases isAsciiLetter_toNat h with ⟨a, b⟩ | ⟨a, b⟩ <;> omega)),
    if_neg (ne_char_of_toNat (show ('\n').toNat = 10 from rfl) (by omega)),
    if_neg (ne_char_of_toNat (show ('\t').toNat = 9 from rfl) (by omega)),
    if_neg (ne_char_of_toNat (show ('\r').toNat = 13 from rfl) (by omega)),
    if_neg (show ¬c.toNat = 8 by omega),
    if_neg (show ¬c.toNat = 12 by omega),
    if_neg (show ¬c.toNat < 0x20 by omega)]

/-- Characters of `substNL s` stay inside the letter-or-sentinel class. -/
theorem substNL_chars {s : List Char} (hs : ∀ c ∈ s, isAsciiLetter c = true ∨ c = '\n') :
    ∀ c ∈ substNL s, isAsciiLetter c = true ∨ c = sent := by
  intro c hc
  rw [substNL, List.mem_map] at hc
  obtain ⟨d, hd, he⟩ := hc
  by_cases hdn : d = '\n'
  · rw [hdn] at he
    simp only [if_pos rfl] at he
    exact Or.inr he.symm
  · rw [if_neg hdn] at he
    subst he
    rcases hs d hd with h | h
    · exact Or.inl h
    · exact absurd h hdn

/-- The sentinel lands in `substNL s` whenever `s` has a newline. -/
theorem sent_mem_substNL {s : List Char} (h : '\n' ∈ s) : sent ∈ substNL s := by
  rw [substNL, List.mem_map]
  exact ⟨'\n', h, by simp⟩

/-- Letter-or-sentinel characters are not line boundaries. -/
theorem class_not_lb {c : Char} (h : isAsciiLetter c = true ∨ c = sent) :
    isLB c = false := by
  have hb := class_toNat h
  simp only [isLB, Bool.or_eq_false_iff, decide_eq_false_iff_not]
  omega

/-- Letter-or-sentinel characters are never the backslash. -/
theorem class_ne_backslash {c : Char} (h : isAsciiLetter c = true ∨ c = sent) :
    c ≠ '\\' := by
  have hb := class_toNat h
  exact ne_char_of_toNat (show ('\\').toNat = 92 from rfl) (by omega)

/-- `replF` turns each escaped newline of a serialized letters-and-
newlines string body back into a sentinel character. -/
theorem replF_escStr {s : List Char} (hs : ∀ c ∈ s, isAsciiLetter c = true ∨ c = '\n') :
    ∀ f, (escStr s).length + 1 ≤ f →
      replF nlSeq [sent] f (escStr s ++ ['"']) = substNL s ++ ['"'] := by
  induction s with
  | nil =>
    intro f hf
    obtain ⟨f, rfl⟩ : ∃ g, f = g + 1 := ⟨f - 1, by omega⟩
    simp only [escStr, List.nil_append, substNL, List.map_nil]
    rw [show (nlSeq : List Char) = '\\' :: ['n'] from rfl]
    rw [replF_no_match [sent] f []
      (leadsWith_cons_ne ['n'] [] (show ('"' : Char) ≠ '\\' by decide))]
    cases f <;> rfl
  | cons c cs ih =>
    intro f hf
    have hlen : (escStr (c :: cs)).length = (escC c).length + (escStr cs).length := by
      simp [escStr]
    rcases hs c (List.mem_cons_self c cs) with hc | hc
    · have he : escC c = [c] := escC_letter hc
      have harg : escStr (c :: cs) ++ ['"'] = c :: (escStr cs ++ ['"']) := by
        simp [escStr, he]
      rw [harg]
      obtain ⟨f, rfl⟩ : ∃ g, f = g + 1 := ⟨f - 1, by omega⟩
      rw [show (nlSeq : List Char) = '\\' :: ['n'] from rfl]
      rw [replF_no_match [sent] f _
        (leadsWith_cons_ne ['n'] _ (class_ne_backslash (Or.inl hc)))]
      rw [show ('\\' :: ['n'] : List Char) = nlSeq from rfl]
      rw [ih (fun d m => hs d (List.mem_cons_of_mem c m)) f (by
        rw [hlen, he] at hf
        simp at hf
        omega)]
      have hsub : substNL (c :: cs) = c :: substNL cs := by
        simp only [substNL, List.map_cons]
        rw [if_neg (ne_char_of_toNat (show ('\n').toNat = 10 from rfl) (by
          rcases isAsciiLetter_toNat hc with ⟨a, b⟩ | ⟨a, b⟩ <;> omega))]
      rw [hsub]
      rfl
    · subst hc
      have harg : escStr ('\n' :: cs) ++ ['"'] = '\\' :: 'n' :: (escStr cs ++ ['"']) := by
        simp [escStr, escC]
      rw [harg]
      obtain ⟨f, rfl⟩ : ∃ g, f = g + 1 := ⟨f - 1, by omega⟩
      have hlead : leadsWith nlSeq ('\\' :: 'n' :: (escStr cs ++ ['"'])) = true := by
        simp [nlSeq, leadsWith]
      rw [replF_match_step [sent] f _ hlead]
      have hdrop : ('\\' :: 'n' :: (escStr cs ++ ['"'])).drop (nlSeq : List Char).length =
          escStr cs ++ ['"'] := rfl
      rw [hdrop]
      rw [ih (fun d m => hs d (List.mem_cons_of_mem _ m)) f (by
        rw [hlen] at hf
        have : (escC '\n').length = 2 := rfl
        omega)]
      have hsub : substNL ('\n' :: cs) = sent :: substNL cs := by
        simp [substNL]
      rw [hsub]
      rfl

/-- `pStr` over a body of plain characters stops at the closing quote. -/
theorem pStr_plain {b : List Char}
    (h : ∀ c ∈ b, ¬c = '"' ∧ ¬c = '\\' ∧ ¬c.toNat < 0x20) :
    ∀ rest, pStr (b ++ ('"' :: rest)) = some (b, rest) := by
  induction b with
  | nil => intro rest; exact pStr_quote rest
  | cons c cs ih =>
    intro rest
    obtain ⟨h1, h2, h3⟩ := h c (List.mem_cons_self c cs)
    have harg : (c :: cs) ++ ('"' :: rest) = c :: (cs ++ ('"' :: rest)) := rfl
    rw [harg, pStr_raw _ h1 h2 h3, ih (fun d m => h d (List.mem_cons_of_mem c m))]
    rfl

/-- The letter-or-sentinel class consists of plain string characters. -/
theorem class_plain {c : Char} (h : isAsciiLetter c = true ∨ c = sent) :
    ¬c = '"' ∧ ¬c = '\\' ∧ ¬c.toNat < 0x20 := by
  have hb := class_toNat h
  refine ⟨ne_char_of_toNat (show ('"').toNat = 34 from rfl) (by omega),
    ne_char_of_toNat (show ('\\').toNat = 92 from rfl) (by omega),
    by omega⟩

/-- `json.loads` of a quoted plain body yields the string value. -/
theorem jloads_quoted_plain (b : List Char)
    (h : ∀ c ∈ b, ¬c = '"' ∧ ¬c = '\\' ∧ ¬c.toNat < 0x20) :
    jloads ('"' :: (b ++ ['"'])) = some (.str b) := by
  unfold jloads
  obtain ⟨g, hg⟩ : ∃ g, 2 * ('"' :: (b ++ ['"'])).length + 2 = g + 1 :=
    ⟨2 * ('"' :: (b ++ ['"'])).length + 1, rfl⟩
  rw [hg, pV.eq_2]
  have harg : ('"' :: (b ++ ['"']) : List Char) = '"' :: (b ++ ('"' :: [])) := rfl
  rw [harg, skipWs_cons_not '"' _ (by decide)]
  simp [pStr_plain h, skipWs]

/-- Letter-or-sentinel characters are not literal-level blanks. -/
theorem class_not_sptab {c : Char} (h : isAsciiLetter c = true ∨ c = sent) :
    (c.toNat = 32 || c.toNat = 9) = false := by
  have hb := class_toNat h
  simp only [Bool.or_eq_false_iff, decide_eq_false_iff_not]
  omega

/-- Membership survives a keyword prefix. -/
theorem sent_mem_drop {kw l : List Char} (hkw : leadsWith kw l = true)
    (hnot : sent ∉ kw) (hs : sent ∈ l) : sent ∈ l.drop kw.length := by
  have h4 := leadsWith_eq_append hkw
  rw [← h4] at hs
  rcases List.mem_append.mp hs with h | h
  · exact absurd h hnot
  · exact h

/-- When the remainder after a parsed literal still holds the sentinel,
`litEval` rejects the line. -/
theorem litEval_tail_not_nil (c : Char) (t r : List Char) (v : Val)
    (hv : pLit (2 * (c :: t).length + 2) (c :: t) = some (v, r))
    (hr : sent ∈ r) (hchars2 : ∀ d ∈ r, isAsciiLetter d = true ∨ d = sent) :
    litEval (c :: t) = none := by
  unfold litEval
  rw [hv]
  obtain ⟨d, u, rfl⟩ := List.exists_cons_of_ne_nil (List.ne_nil_of_mem hr)
  simp [skipSpTab_cons_not _ (class_not_sptab (hchars2 d (List.mem_cons_self d u)))]

/-- A line of letters and sentinels that actually contains a sentinel is
not a Python literal: `ast.literal_eval` fails on it. -/
theorem litEval_none_class (l : List Char) (hsent : sent ∈ l)
    (hchars : ∀ c ∈ l, isAsciiLetter c = true ∨ c = sent) : litEval l = none := by
  obtain ⟨c, t, rfl⟩ := List.exists_cons_of_ne_nil (List.ne_nil_of_mem hsent)
  have hskip : skipSpTab (c :: t) = c :: t :=
    skipSpTab_cons_not _ (class_not_sptab (hchars c (List.mem_cons_self c t)))
  have hfuel : 2 * (c :: t).length + 2 = (2 * (c :: t).length + 1) + 1 := rfl
  have hdropmem : ∀ (r : List Char), r = (c :: t).drop 4 ∨ r = (c :: t).drop 5 →
      ∀ d ∈ r, isAsciiLetter d = true ∨ d = sent := by
    rintro r (rfl | rfl) d hd
    · exact hchars d (List.mem_of_mem_drop hd)
    · exact hchars d (List.mem_of_mem_drop hd)
  by_cases hN : leadsWith ['N', 'o', 'n', 'e'] (c :: t) = true
  · have hv : pLit (2 * (c :: t).length + 2) (c :: t) = some (.null, (c :: t).drop 4) := by
      rw [hfuel, pLit.eq_2]
      simp [hskip, hN]
    have hs4 : sent ∈ (c :: t).drop 4 :=
      sent_mem_drop hN (by decide) hsent
    exact litEval_tail_not_nil c t _ _ hv hs4 (hdropmem _ (Or.inl rfl))
  by_cases hT : leadsWith ['T', 'r', 'u', 'e'] (c :: t) = true
  · have hv : pLit (2 * (c :: t).length + 2) (c :: t) =
        some (.bool true, (c :: t).drop 4) := by
      rw [hfuel, pLit.eq_2]
      simp [hskip, hN, hT]
    have hs4 : sent ∈ (c :: t).drop 4 :=
      sent_mem_drop hT (by decide) hsent
    exact litEval_tail_not_nil c t _ _ hv hs4 (hdropmem _ (Or.inl rfl))
  by_cases hF : leadsWith ['F', 'a', 'l', 's', 'e'] (c :: t) = true
  · have hv : pLit (2 * (c :: t).length + 2) (c :: t) =
        some (.bool false, (c :: t).drop 5) := by
      rw [hfuel, pLit.eq_2]
      simp [hskip, hN, hT, hF]
    have hs5 : sent ∈ (c :: t).drop 5 :=
      sent_mem_drop hF (by decide) hsent
    exact litEval_tail_not_nil c t _ _ hv hs5 (hdropmem _ (Or.inr rfl))
  · have hc := hchars c (List.mem_cons_self c t)
    have hct := class_toNat hc
    have hq1 : ¬(c = '\'' ∨ c = '"') := by
      rintro (e | e)
      · exact (ne_char_of_toNat (show ('\'').toNat = 39 from rfl) (by omega)) e
      · exact (ne_char_of_toNat (show ('"').toNat = 34 from rfl) (by omega)) e
    have hq2 : ¬(c = '-' ∨ c.isDigit = true) := by
      rintro (e | e)
      · exact (ne_char_of_toNat (show ('-').toNat = 45 from rfl) (by omega)) e
      · have h6 := isDigit_toNat e
        omega
    have hq3 : ¬c = '[' :=
      ne_char_of_toNat (show ('[').toNat = 91 from rfl) (by omega)
    have hq4 : ¬c = '{' :=
      ne_char_of_toNat (show ('{').toNat = 123 from rfl) (by omega)
    have hv : pLit (2 * (c :: t).length + 2) (c :: t) = none := by
      rw [hfuel, pLit.eq_2]
      simp [hskip, hN, hT, hF, hq1, hq2, hq3, hq4]
    unfold litEval
    rw [hv]

/-! Helper lemmas: the JSON-Lines fallback loop. -/

/-- The fallback loop succeeds on lines that all parse, at any starting
index. -/
theorem loadLines_of_linesVals : ∀ (ls : List (List Char)) (vs : ValList) (i : Nat),
    linesVals ls = some vs → loadLines ls i = .ok vs := by
  intro ls
  induction ls with
  | nil =>
    intro vs i h
    simp only [linesVals, Option.some_inj] at h
    subst h
    rfl
  | cons l ls2 ih =>
    intro vs i h
    simp only [linesVals] at h
    cases hj : jloads l with
    | none => rw [hj] at h; cases h
    | some v =>
      rw [hj] at h
      cases hrec : linesVals ls2 with
      | none => rw [hrec] at h; cases h
      | some vs2 =>
        rw [hrec] at h
        simp only [Option.some_inj] at h
        subst h
        simp only [loadLines, hj, ih vs2 (i + 1) hrec]

/-- The model `json.loads` rejects empty text. -/
theorem jloads_nil : jloads ([] : List Char) = none := by decide

/-- Lines that parse are non-empty. -/
theorem linesVals_mem_ne_nil : ∀ (ls : List (List Char)) (vs : ValList),
    linesVals ls = some vs → ∀ l ∈ ls, l ≠ [] := by
  intro ls
  induction ls with
  | nil => intro vs _ l hl; cases hl
  | cons l0 ls2 ih =>
    intro vs h l hl
    simp only [linesVals] at h
    cases hj : jloads l0 with
    | none => rw [hj] at h; cases h
    | some v =>
      rw [hj] at h
      cases hrec : linesVals ls2 with
      | none => rw [hrec] at h; cases h
      | some vs2 =>
        rcases List.mem_cons.mp hl with rfl | hl2
        · intro e
          rw [e, jloads_nil] at hj
          cases hj
        · exact ih vs2 hrec l hl2

/-! Helper lemmas: the sentinel path of a bare string document. -/

/-- Ingestion's escape replacement on the serialized text of a
letters-and-newlines string: each two-character backslash-n becomes the
sentinel character. -/
theorem pyReplace_ser_str {s : List Char}
    (hs : ∀ c ∈ s, isAsciiLetter c = true ∨ c = '\n') :
    pyReplace nlSeq [sent] (serV (.str s)) = '"' :: (substNL s ++ ['"']) := by
  unfold pyReplace
  have harg : serV (.str s) = '"' :: (escStr s ++ ['"']) := by
    simp [serV]
  rw [harg]
  have hlen : ('"' :: (escStr s ++ ['"'])).length = ((escStr s).length + 1) + 1 := by
    simp
  rw [hlen]
  rw [show (nlSeq : List Char) = '\\' :: ['n'] from rfl]
  rw [replF_no_match [sent] ((escStr s).length + 1) _
    (leadsWith_cons_ne ['n'] _ (show ('"' : Char) ≠ '\\' by decide))]
  rw [show ('\\' :: ['n'] : List Char) = nlSeq from rfl]
  rw [replF_escStr hs ((escStr s).length + 1) (le_refl _)]

/-- Ingesting the serialized text of a letters-and-newlines string
yields the string with newlines replaced by the sentinel. -/
theorem load_json_ser_str {s : List Char}
    (hs : ∀ c ∈ s, isAsciiLetter c = true ∨ c = '\n') :
    load_json (serV (.str s)) = .ok (.str (substNL s)) := by
  unfold load_json
  rw [stripL_serV (.str s), pyReplace_ser_str hs]
  simp only []
  rw [jloads_quoted_plain (substNL s) (fun c hc => class_plain (substNL_chars hs c hc))]

/-- `normalize` on a sentinel-bearing letters line: the literal parse
fails, so the line is re-quoted with the sentinel intact (raw mode
off). -/
theorem normalize_sent_line {x : List Char} (hne : x ≠ [])
    (hcl : ∀ c ∈ x, isAsciiLetter c = true ∨ c = sent) (hx : sent ∈ x) :
    normalize x false = [.str ('"' :: x ++ ['"'])] := by
  unfold normalize
  rw [splitlinesL_single x hne (fun c hc => class_not_lb (hcl c hc))]
  have hid : pyReplace uSeq nlSeq x = x :=
    pyReplace_id_of_head_ne '\\' ['u', '2', '0', '6', '3'] nlSeq x
      (fun c hc => class_ne_backslash (hcl c hc))
  have hid2 : pyReplace uSeq nlSeq ('"' :: x ++ ['"']) = '"' :: x ++ ['"'] := by
    apply pyReplace_id_of_head_ne
    intro c hc
    rcases List.mem_cons.mp hc with rfl | hc2
    · decide
    · rcases List.mem_append.mp hc2 with h | h
      · exact class_ne_backslash (hcl c h)
      · rw [List.mem_singleton] at h
        subst h
        decide
  simp only [List.map_cons, List.map_nil]
  rw [hid, litEval_none_class x hx hcl]
  simp only [Bool.false_eq_true, if_false]
  rw [hid2]

/-! Claim theorems. -/

/-- C1 (counterexample): the ingestion round trip fails exactly on the
case the claim singles out.  For the document `D = "a\nb"` (a string
with an embedded newline, whose JSON text uses the two-character escape
sequence backslash-n), `load_json (json_text D)` is not `D`: ingestion
replaces the escape sequence by the sentinel U+2063 before parsing, so
the parsed string carries the sentinel instead of the newline. -/
theorem C1_counterexample :
    load_json (serV (.str ['a', '\n', 'b'])) ≠ Except.ok (Val.str ['a', '\n', 'b']) := by
  decide

/-- C1 (amended): for every document `D` whose serialized JSON text does
not contain the two-character sequence backslash-n, ingestion inverts
serialization: `load_json (json_text D) = D`. -/
theorem C1_roundtrip (v : Val) (h : hasSeq nlSeq (serV v) = false) :
    load_json (serV v) = .ok v :=
  load_json_serV v h

/-- Witness for C1: the round trip on the concrete document
`{"a": [1, true]}`. -/
theorem C1_roundtrip_witness :
    hasSeq nlSeq (serV (Val.dict (.cons ['a']
      (.list (.cons (.int 1) (.cons (.bool true) .nil))) .nil))) = false ∧
    load_json (serV (Val.dict (.cons ['a']
      (.list (.cons (.int 1) (.cons (.bool true) .nil))) .nil))) =
      .ok (Val.dict (.cons ['a']
        (.list (.cons (.int 1) (.cons (.bool true) .nil))) .nil)) :=
  ⟨by decide, C1_roundtrip _ (by decide)⟩

/-- C2 (counterexample): for the top-level String document `"a\nb"`,
the full ingestion→evaluation→normalization round trip does not
reproduce the string: the result is the re-quoted text with the
sentinel character still in place of the newline. -/
theorem C2_counterexample :
    evalNorm (serV (.str ['a', '\n', 'b'])) .identity false =
      .ok [.str ['"', 'a', sent, 'b', '"']] ∧
    (['"', 'a', sent, 'b', '"'] : List Char) ≠ ['a', '\n', 'b'] := by
  refine ⟨by decide, by decide⟩

/-- Reduction of `evalNorm` on successful stages. -/
theorem evalNorm_ok {input : List Char} {q : Query} {raw : Bool} {v : Val}
    {out : List Char} (h1 : load_json input = .ok v)
    (h2 : pyquery (execQuery q v) = .ok out) :
    evalNorm input q raw = .ok (normalize out raw) := by
  unfold evalNorm
  simp [h1, h2]

/-- C2 (amended): for a bare top-level String value the newline is not
substituted back, in either branch of `normalize`.  (1) For every
String value over ASCII letters and newlines that contains a newline,
ingested as the whole document and run through the identity query and
`normalize` (raw mode off), the output line is not a Python literal, so
the fallback fires: the normalizer returns the single string consisting
of the original value with every newline replaced by the sentinel
U+2063, wrapped in an extra pair of double quotes.  (2) For the value
`'a\nb'` (single-quote characters part of the value), the output line
IS a valid Python string literal, `ast.literal_eval` succeeds, and the
normalizer returns the dequoted string with the sentinel still in place
of the newline and no quotes added.  In both branches the sentinel
persists: it is only translated back for values whose `repr` spells it
as the six characters backslash-u-2-0-6-3, i.e. strings nested inside
containers, because cli.py:113 and cli.py:121 replace that raw text
rather than the character. -/
theorem C2_no_restore (s : List Char)
    (hchars : ∀ c ∈ s, isAsciiLetter c = true ∨ c = '\n') (hnl : '\n' ∈ s) :
    (evalNorm (serV (.str s)) .identity false =
      .ok [.str ('"' :: substNL s ++ ['"'])]) ∧
    evalNorm (serV (.str ['\'', 'a', '\n', 'b', '\''])) .identity false =
      .ok [.str ['a', sent, 'b']] := by
  refine ⟨?_, by decide⟩
  have hne : substNL s ≠ [] := by
    intro e
    rw [substNL, List.map_eq_nil_iff] at e
    subst e
    cases hnl
  have hcl := substNL_chars hchars
  have hsent := sent_mem_substNL hnl
  have h2 : pyquery (execQuery .identity (.str (substNL s))) = .ok (substNL s) := by
    rw [show execQuery .identity (.str (substNL s)) =
      .completes (substNL s ++ ['\n']) from rfl]
    exact pyquery_completes (substNL s)
  rw [evalNorm_ok (load_json_ser_str hchars) h2]
  rw [normalize_sent_line hne hcl hsent]

/-- Witness for C2: the string `"ab\ncd"` for the universal part. -/
theorem C2_no_restore_witness :
    (∀ c ∈ (['a', 'b', '\n', 'c', 'd'] : List Char),
      isAsciiLetter c = true ∨ c = '\n') ∧
    ((evalNorm (serV (.str ['a', 'b', '\n', 'c', 'd'])) .identity false =
      .ok [.str ('"' :: substNL ['a', 'b', '\n', 'c', 'd'] ++ ['"'])]) ∧
    evalNorm (serV (.str ['\'', 'a', '\n', 'b', '\''])) .identity false =
      .ok [.str ['a', sent, 'b']]) :=
  ⟨by decide, C2_no_restore _ (by decide) (by decide)⟩

/-- C3 (counterexample): a `TypeError` raised after the query already
produced output is not reported: `pyquery` returns success with empty
output even though the captured stream is non-empty. -/
theorem C3_counterexample :
    pyquery (.raises (.typeE (chars "unsupported operand type"))
      (chars "[1, 2]\n")) = .ok [] ∧ (chars "[1, 2]\n") ≠ [] := by
  exact ⟨rfl, by decide⟩

/-- C3 (amended): every `TypeError` during evaluation is treated as
success with an empty result, whatever the query printed: the `output`
variable is assigned only after `exec` returns (cli.py:142-143), so the
handler's `output is None` test always passes and its reporting branch
(cli.py:168-171) is unreachable. -/
theorem C3_typeerror_silent (t p : List Char) :
    pyquery (.raises (.typeE t) p) = .ok [] := rfl

/-- C4 (counterexample): empty input does not produce an
`IngestionError`: the whole-document parse fails, but the JSON-Lines
fallback iterates over zero lines and returns the empty Array. -/
theorem C4_counterexample : load_json [] = .ok (.list .nil) := by decide

/-- C4 (amended): for every empty or whitespace-only raw input, the
trimmed text is empty, its whole-document parse fails, and the
JSON-Lines fallback over the zero lines of the empty text succeeds with
the empty Array — no error is reported and `Array([])` is returned. -/
theorem C4_empty_input (input : List Char) (h : ∀ c ∈ input, isStripWs c = true) :
    load_json input = .ok (.list .nil) := by
  unfold load_json
  rw [stripL_eq_nil input h]
  rfl

/-- Witness for C4: whitespace-only input. -/
theorem C4_empty_input_witness :
    (∀ c ∈ ([' ', '\n', '\t'] : List Char), isStripWs c = true) ∧
    load_json [' ', '\n', '\t'] = .ok (.list .nil) :=
  ⟨by decide, C4_empty_input _ (by decide)⟩

/-- C5 (counterexample): empty lines ARE parsed by the JSON-Lines
fallback, and fatally so: on input `1\n\n2` the whole-document parse
fails and the empty second line raises the `JSON Load Exception`
naming line 2. -/
theorem C5_counterexample :
    load_json (chars "1\n\n2") = .error (.ingestion 2 []) := by decide

/-- C5 (amended): for every line-separated sequence of valid JSON
values (each line boundary-free, the joined text already stripped,
containing no backslash-n sequence, and not parsing as one document),
ingestion parses every line independently — empty lines are not
skipped but fail fatally — and returns `Array(L)`. -/
theorem C5_jsonlines (ls : List (List Char)) (vs : ValList)
    (hlb : ∀ l ∈ ls, ∀ c ∈ l, isLB c = false)
    (hvals : linesVals ls = some vs)
    (hwhole : jloads (joinNL ls) = none)
    (hstrip : stripL (joinNL ls) = joinNL ls)
    (hseq : hasSeq nlSeq (joinNL ls) = false) :
    load_json (joinNL ls) = .ok (.list vs) := by
  unfold load_json
  rw [hstrip, pyReplace_id_of_no_seq _ _ _ hseq]
  simp only []
  rw [hwhole]
  rw [splitlinesL_join ls
    (fun l hl => ⟨linesVals_mem_ne_nil ls vs hvals l hl, hlb l hl⟩)]
  rw [loadLines_of_linesVals ls vs 1 hvals]

/-- Witness for C5: the two JSON-Lines rows `1` and `2`. -/
theorem C5_jsonlines_witness :
    linesVals [['1'], ['2']] = some (.cons (.int 1) (.cons (.int 2) .nil)) ∧
    load_json (joinNL [['1'], ['2']]) =
      .ok (.list (.cons (.int 1) (.cons (.int 2) .nil))) :=
  ⟨by decide, C5_jsonlines _ _ (by decide) (by decide) (by decide) (by decide) (by decide)⟩

/-- Reduction of `mainFromVal` on an evaluation error. -/
theorem mainFromVal_err {v : Val} {q : Query} {o : Opts} {e : JelloErr}
    (h : pyquery (execQuery q v) = .error e) : mainFromVal v q o = .error e := by
  unfold mainFromVal
  simp [h]

/-- C6 (confirmed): for every Object input and member lookup of an
absent key, the pipeline reports `KeyError` with the message naming the
missing key (its `repr`), the process exits non-zero (modelled by the
`Except.error`), and nothing is printed to stdout (an `Except.error`
short-circuits before `print_json`). -/
theorem C6_keyerror (kvs : ValDict) (k : List Char) (o : Opts)
    (h : dictLookup k kvs = none) :
    mainFromVal (.dict kvs) (.member k) o =
      .error (.keyErr (chars "jello:  Key does not exist: " ++
        pyRepr (.str k) ++ ['\n'])) := by
  apply mainFromVal_err
  have he : execQuery (.member k) (.dict kvs) =
      .raises (.keyE (pyRepr (.str k))) [] := by
    simp [execQuery, h]
  rw [he]
  rfl

/-- Witness for C6: the spec scenario, input `{"x": 1}` with lookup of
the absent key `"y"`. -/
theorem C6_keyerror_witness :
    dictLookup ['y'] (.cons ['x'] (.int 1) .nil) = none ∧
    mainFromVal (.dict (.cons ['x'] (.int 1) .nil)) (.member ['y'])
        ⟨false, false, false, false⟩ =
      .error (.keyErr (chars "jello:  Key does not exist: " ++
        pyRepr (.str ['y']) ++ ['\n'])) :=
  ⟨by decide, C6_keyerror _ _ _ (by decide)⟩

/-- C7 (confirmed): on input `["a", null, true, 42]` with the identity
query and flags `lines = true`, `nulls = true`, the pipeline prints
exactly the four lines `"a"`, `null`, `true`, `42`. -/
theorem C7_scenario :
    mainModel (chars "[\"a\", null, true, 42]") .identity
        ⟨false, true, true, false⟩ =
      .ok (chars "\"a\"\nnull\ntrue\n42\n") := by
  decide

/-- C9 (confirmed): when the first normalized result is a Number, no
branch of `print_json`'s dispatch matches — the formatter prints
nothing at all and returns success. -/
theorem C9_number_prints_nothing (n : Int) (rest : List Val) (o : Opts) :
    print_json (Val.int n :: rest) o = .ok [] := rfl

/-- C10 (confirmed): an evaluator output line that is not parseable as
a literal, with raw mode off, is wrapped in quotes once by `normalize`
and once more by `print_json`: the printed result carries two pairs of
double quotes. -/
theorem C10_double_quotes (out : List Char) (compact nulls lines : Bool)
    (hne : out ≠ []) (hlb : ∀ c ∈ out, isLB c = false)
    (hlit : litEval (pyReplace uSeq nlSeq out) = none) :
    print_json (normalize out false) ⟨compact, nulls, lines, false⟩ =
      .ok ('"' :: '"' :: pyReplace uSeq nlSeq out ++ ['"', '"', '\n']) := by
  unfold normalize
  rw [splitlinesL_single out hne hlb]
  simp only [List.map_cons, List.map_nil]
  rw [hlit]
  simp only [Bool.false_eq_true, if_false]
  have hdist : pyReplace uSeq nlSeq ('"' :: out ++ ['"']) =
      ('"' :: pyReplace uSeq nlSeq out) ++ ['"'] := by
    unfold pyReplace
    have hlen : ('"' :: out ++ ['"']).length = (out.length + 1) + 1 := by simp
    rw [hlen]
    rw [show (uSeq : List Char) = '\\' :: ['u', '2', '0', '6', '3'] from rfl]
    have hc1 : ('"' :: out) ++ ['"'] = '"' :: (out ++ ['"']) := rfl
    rw [show ('"' :: out ++ ['"'] : List Char) = '"' :: (out ++ ['"']) from rfl]
    rw [replF_no_match nlSeq (out.length + 1) _
      (leadsWith_cons_ne ['u', '2', '0', '6', '3'] _ (show ('"' : Char) ≠ '\\' by decide))]
    rw [replF_append_quote '\\' ['u', '2', '0', '6', '3'] nlSeq (by decide)
      out.length out (out.length + 1) (le_refl _)]
    rw [replF_eq_pyReplace '\\' ['u', '2', '0', '6', '3'] nlSeq out (out.length + 1)
      (by omega)]
    rfl
  rw [hdist]
  show Except.ok ('"' :: (('"' :: pyReplace uSeq nlSeq out) ++ ['"']) ++ ['"', '\n']) = _
  congr 1
  simp

/-- Witness for C10: the plain-text line `hello world`. -/
theorem C10_double_quotes_witness :
    litEval (pyReplace uSeq nlSeq (chars "hello world")) = none ∧
    print_json (normalize (chars "hello world") false) ⟨false, false, false, false⟩ =
      .ok ('"' :: '"' :: pyReplace uSeq nlSeq (chars "hello world") ++ ['"', '"', '\n']) :=
  ⟨by decide, C10_double_quotes _ false false false (by decide) (by decide) (by decide)⟩

end Jello
